import Mathlib

/-!
Verification of the `headerlibs` data structures: the collision-chain hashtable
of `src/hashtable.h` and the fixed-element memory pool of `src/mempool.h`.

The C code is shallowly embedded:
* bucket arrays (`struct hashtable_item**`) become `List (List (hashtable_item κ ν))`,
  a collision chain (`next` pointers) becoming a `List`;
* `uint32_t` counters are modelled as `Nat`.  All arithmetic performed by the
  library (counts, sizes, byte offsets) stays far below `2 ^ 32` in any
  execution the spec considers, so wrap-around is not modelled; the one
  decrement that could underflow (`--pool->alloc_count`) is only exercised by
  theorems whose hypotheses keep it positive, matching the documented
  precondition that freed elements were previously allocated;
* the caller-supplied function pointers become fields `hashfunc : κ → Nat`
  and `compfunc : κ → κ → Int` (the C compare function returns `0` on match);
* raw pool memory is abstracted: an element address is the pair
  (index of its block, byte offset inside the block), and a block pointer is
  recorded as a `Bool` saying whether its `malloc` returned non-null;
* the fallible allocations inside `mempool_alloc_internal` take explicit
  success flags, so both failure branches of the C code are expressible.
-/

/-! ### Hashtable: data model (src/hashtable.h lines 112-166) -/

/-- HASHTABLE_DEFAULT_SIZE, the initial bucket count (line 113). -/
def HASHTABLE_DEFAULT_SIZE : Nat := 16

/-- HASHTABLE_SIZE_TOLERANCE, the resize tolerance in percent (line 120). -/
def HASHTABLE_SIZE_TOLERANCE : Nat := 70

/-- One chain entry, `struct hashtable_item` (lines 140-146); the `next`
pointer is represented by the tail of the enclosing `List`. -/
structure hashtable_item (κ ν : Type) where
  key : κ
  data : ν
deriving DecidableEq, Repr

/-- The table, `struct hashtable_t` (lines 148-159). -/
structure hashtable_t (κ ν : Type) where
  hashfunc : κ → Nat
  compfunc : κ → κ → Int
  size : Nat
  count : Nat
  items : List (List (hashtable_item κ ν))

/-- The iterator, `struct hashtable_iterator` (lines 161-166).  The `item`
pointer into a chain is modelled by the suffix of that chain starting at the
pointed-to entry; the null pointer is the empty list. -/
structure hashtable_iterator (κ ν : Type) where
  table : hashtable_t κ ν
  item : List (hashtable_item κ ν)
  index : Nat

variable {κ ν : Type}

/-- Reading `hashtable->items[i]`. -/
def hashtable_bucket (t : hashtable_t κ ν) (i : Nat) : List (hashtable_item κ ν) :=
  t.items.getD i []

/-- Bucket index computation `hashfunc(key) & (size - 1)` (lines 187-189). -/
def hashtable_index (t : hashtable_t κ ν) (key : κ) : Nat :=
  t.hashfunc key &&& (t.size - 1)

/-- `hashtable_create_internal` (lines 168-177). -/
def hashtable_create_internal (hashfunc : κ → Nat) (compfunc : κ → κ → Int) :
    hashtable_t κ ν :=
  { hashfunc := hashfunc
    compfunc := compfunc
    count := 0
    size := HASHTABLE_DEFAULT_SIZE
    items := List.replicate HASHTABLE_DEFAULT_SIZE [] }

/-- The chain walk of `hashtable_insert_internal` (lines 191-223): an empty
slot receives the item; otherwise the chain is scanned for a key for which
`compfunc` returns `0` - on a match the new item is spliced into the place of
the old entry (keeping its successor) and the old data is returned, and with
no match the item is appended at the tail. -/
def chain_insert (compfunc : κ → κ → Int) (item : hashtable_item κ ν) :
    List (hashtable_item κ ν) → Option ν × List (hashtable_item κ ν)
  | [] => (none, [item])
  | cur :: rest =>
    if compfunc cur.key item.key = 0 then
      (some cur.data, item :: rest)
    else
      let r := chain_insert compfunc item rest
      (r.1, cur :: r.2)

/-- `hashtable_insert_internal` (lines 182-225): place the item in the bucket
selected by `hashfunc(key) & (size-1)`.  Does not resize, does not touch
`count`. -/
def hashtable_insert_internal (t : hashtable_t κ ν) (item : hashtable_item κ ν) :
    Option ν × hashtable_t κ ν :=
  let index := hashtable_index t item.key
  let r := chain_insert t.compfunc item (hashtable_bucket t index)
  (r.1, { t with items := t.items.set index r.2 })

/-- `hashtable_resize` (lines 229-262): double (`direction = 1`, `size << 1`)
or halve (`direction = -1`, `size >> 1`) the bucket array and reinsert every
old entry, visiting buckets in ascending index order and each chain from head
to tail; any other `direction` returns the table unchanged. -/
def hashtable_resize (t : hashtable_t κ ν) (direction : Int) : hashtable_t κ ν :=
  if direction = 1 ∨ direction = -1 then
    let newsize := if direction = 1 then t.size * 2 else t.size / 2
    (t.items.flatten).foldl (fun acc it => (hashtable_insert_internal acc it).2)
      { t with size := newsize, items := List.replicate newsize [] }
  else t

/-- `hashtable_insert` (lines 264-275): the count is pre-incremented
(`++hashtable->count`) and the growth check `count*100 >= size*TOLERANCE` runs
on the incremented value before the duplicate scan ever happens; then the new
item is handed to `hashtable_insert_internal`. -/
def hashtable_insert (t : hashtable_t κ ν) (key : κ) (data : ν) :
    Option ν × hashtable_t κ ν :=
  let t1 : hashtable_t κ ν := { t with count := t.count + 1 }
  let t2 := if t1.count * 100 ≥ t1.size * HASHTABLE_SIZE_TOLERANCE then
      hashtable_resize t1 1
    else t1
  hashtable_insert_internal t2 ⟨key, data⟩

/-- The chain walk of `hashtable_find`: return the data of the first entry
whose key compares equal (lines 284-292). -/
def chain_find (compfunc : κ → κ → Int) (key : κ) :
    List (hashtable_item κ ν) → Option ν
  | [] => none
  | cur :: rest =>
    if compfunc cur.key key = 0 then some cur.data else chain_find compfunc key rest

/-- `hashtable_find` (lines 277-294): pure lookup in the bucket selected by
`hashfunc(key) & (size-1)`. -/
def hashtable_find (t : hashtable_t κ ν) (key : κ) : Option ν :=
  chain_find t.compfunc key (hashtable_bucket t (hashtable_index t key))

/-- The shrink condition of `hashtable_remove` (line 321):
`count * 100 < size * (100 - HASHTABLE_SIZE_TOLERANCE)`, evaluated on the
already decremented count.  Note the strict `<`. -/
def hashtable_remove_shrink_cond (count size : Nat) : Bool :=
  decide (count * 100 < size * (100 - HASHTABLE_SIZE_TOLERANCE))

/-- The shrink condition of `hashtable_pop` (line 344):
`count * 100 <= size * (100 - HASHTABLE_SIZE_TOLERANCE)`, evaluated on the
already decremented count.  Note the non-strict `<=`. -/
def hashtable_pop_shrink_cond (count size : Nat) : Bool :=
  decide (count * 100 ≤ size * (100 - HASHTABLE_SIZE_TOLERANCE))

/-- The chain walk of `hashtable_remove` (lines 306-328): unlink the first
entry whose key compares equal and return its data. -/
def chain_remove (compfunc : κ → κ → Int) (key : κ) :
    List (hashtable_item κ ν) → Option ν × List (hashtable_item κ ν)
  | [] => (none, [])
  | cur :: rest =>
    if compfunc cur.key key = 0 then
      (some cur.data, rest)
    else
      let r := chain_remove compfunc key rest
      (r.1, cur :: r.2)

/-- `hashtable_remove` (lines 297-330): unlink the matching entry, decrement
`count` and shrink when the (strict) shrink condition holds; an absent key
leaves the table untouched. -/
def hashtable_remove (t : hashtable_t κ ν) (key : κ) : Option ν × hashtable_t κ ν :=
  let index := hashtable_index t key
  let r := chain_remove t.compfunc key (hashtable_bucket t index)
  match r.1 with
  | none => (none, t)
  | some data =>
    let t1 : hashtable_t κ ν :=
      { t with items := t.items.set index r.2, count := t.count - 1 }
    if hashtable_remove_shrink_cond t1.count t1.size then
      (some data, hashtable_resize t1 (-1))
    else (some data, t1)

/-- The loop body of the bucket scan: starting at slot `i` with `fuel`
iterations left, return the first index `< size` whose bucket is non-empty.
The C loops run `i` up to `size`, so `size - i` iterations always suffice;
`fuel` makes the recursion structural. -/
def hashtable_first_nonempty_go (t : hashtable_t κ ν) : Nat → Nat → Option Nat
  | 0, _ => none
  | fuel + 1, i =>
    if i < t.size then
      if (hashtable_bucket t i).isEmpty then hashtable_first_nonempty_go t fuel (i + 1)
      else some i
    else none

/-- The bucket scan shared by `hashtable_pop` (lines 334-337) and the iterator
(lines 403-410, 430-436): the first index `>= i` and `< size` whose bucket is
non-empty. -/
def hashtable_first_nonempty (t : hashtable_t κ ν) (i : Nat) : Option Nat :=
  hashtable_first_nonempty_go t (t.size - i) i

/-- `hashtable_pop` (lines 332-352): remove the head of the first non-empty
bucket in ascending index order, decrement `count`, and shrink when the
(non-strict) shrink condition holds; an empty table returns nothing. -/
def hashtable_pop (t : hashtable_t κ ν) : Option ν × hashtable_t κ ν :=
  match hashtable_first_nonempty t 0 with
  | none => (none, t)
  | some i =>
    match hashtable_bucket t i with
    | [] => (none, t)
    | cur :: rest =>
      let t1 : hashtable_t κ ν :=
        { t with items := t.items.set i rest, count := t.count - 1 }
      if hashtable_pop_shrink_cond t1.count t1.size then
        (some cur.data, hashtable_resize t1 (-1))
      else (some cur.data, t1)

/-- `hashtable_get_count` (lines 354-357). -/
def hashtable_get_count (t : hashtable_t κ ν) : Nat :=
  t.count

/-- All live entries of the table: buckets in ascending index order, each
chain from head to tail. -/
def hashtable_entries (t : hashtable_t κ ν) : List (hashtable_item κ ν) :=
  t.items.flatten

/-- `hashtable_iterator_begin` (lines 397-412): position on the head of the
first non-empty bucket; over an empty table the cursor starts terminal with
`index = size` (the scan loop runs to completion). -/
def hashtable_iterator_begin (t : hashtable_t κ ν) : hashtable_iterator κ ν :=
  match hashtable_first_nonempty t 0 with
  | some i => { table := t, item := hashtable_bucket t i, index := i }
  | none => { table := t, item := [], index := t.size }

/-- `hashtable_iterator_next` (lines 414-441): return the current entry's data
and advance, first along the chain, then to the head of the next non-empty
bucket; a terminal cursor keeps returning nothing. -/
def hashtable_iterator_next (it : hashtable_iterator κ ν) :
    Option ν × hashtable_iterator κ ν :=
  match it.item with
  | [] => (none, it)
  | cur :: rest =>
    if rest.isEmpty = false then
      (some cur.data, { it with item := rest })
    else
      match hashtable_first_nonempty it.table (it.index + 1) with
      | some j => (some cur.data, { it with item := hashtable_bucket it.table j, index := j })
      | none => (some cur.data, { it with item := [], index := it.table.size })

/-- Repeatedly call `hashtable_iterator_next`, collecting the yielded data
until the cursor reports the end (or the fuel runs out); with fuel at least
the number of live entries this is a full iteration. -/
def hashtable_iterator_drain (it : hashtable_iterator κ ν) : Nat → List ν
  | 0 => []
  | fuel + 1 =>
    match hashtable_iterator_next it with
    | (none, _) => []
    | (some v, it2) => v :: hashtable_iterator_drain it2 fuel

/-! ### Hashtable: operation sequences and the reference model -/

/-- One mutating hashtable operation. -/
inductive hashtable_op (κ ν : Type) where
  | ins (key : κ) (data : ν)
  | rem (key : κ)
  | pop

/-- Run one operation on the table, keeping the resulting state. -/
def hashtable_step (t : hashtable_t κ ν) : hashtable_op κ ν → hashtable_t κ ν
  | .ins key data => (hashtable_insert t key data).2
  | .rem key => (hashtable_remove t key).2
  | .pop => (hashtable_pop t).2

/-- Run a sequence of operations from a starting table. -/
def hashtable_run (t : hashtable_t κ ν) (ops : List (hashtable_op κ ν)) :
    hashtable_t κ ν :=
  ops.foldl hashtable_step t

/-- Reference model step, the spec's reading of the operations on a flat
association list: an insert stores the value for its key, replacing the value
of an existing equal key and otherwise appending a fresh entry; a remove
deletes the entry of an equal key; a pop deletes the entry that
`hashtable_pop` removes from the concrete table `t` running alongside, namely
the first live entry in bucket-scan order.  Looking a key up in the model list
therefore returns exactly the most recently inserted value for an equal key
that has not since been removed, popped, or replaced. -/
def hashtable_model_step (c : κ → κ → Int) (t : hashtable_t κ ν)
    (m : List (hashtable_item κ ν)) : hashtable_op κ ν → List (hashtable_item κ ν)
  | .ins key data => (chain_insert c ⟨key, data⟩ m).2
  | .rem key => (chain_remove c key m).2
  | .pop =>
    match (hashtable_entries t).head? with
    | some e => (chain_remove c e.key m).2
    | none => m

/-- Run a sequence of operations on the concrete table and the reference model
side by side (the concrete component never depends on the model component). -/
def hashtable_run_both (c : κ → κ → Int) :
    hashtable_t κ ν × List (hashtable_item κ ν) → List (hashtable_op κ ν) →
      hashtable_t κ ν × List (hashtable_item κ ν)
  | s, [] => s
  | s, op :: ops =>
    hashtable_run_both c (hashtable_step s.1 op, hashtable_model_step c s.1 s.2 op) ops

/-! ### Memory pool: data model (src/mempool.h) -/

/-- The size of `struct mempool_free` (lines 27-31), a single pointer: 8 bytes
on the LP64 platforms the repository targets. -/
def sizeof_mempool_free : Nat := 8

/-- An element address: the index of its block in the pool's block list,
paired with its byte offset inside that block. -/
abbrev mempool_addr : Type := Nat × Nat

/-- `struct mempool_t` (lines 33-49).  `blocks` holds, per allocated block
slot, whether its `malloc` returned non-null; `free_elements` is the intrusive
free list read off as the list of freed element addresses. -/
structure mempool_t where
  element_size : Nat
  block_size : Nat
  block_count : Nat
  alloc_count : Nat
  block_end : Nat
  blocks : List Bool
  free_elements : List mempool_addr
deriving DecidableEq, Repr

/-- `MEMPOOL_INIT(elem_size, elem_count)` (lines 55-60): `element_size` is
clamped up to `sizeof(struct mempool_free)`, but `block_size` is computed from
the raw, unclamped `elem_size`; every other field is zero-initialized. -/
def MEMPOOL_INIT (elem_size elem_count : Nat) : mempool_t :=
  { element_size := if elem_size < sizeof_mempool_free then sizeof_mempool_free else elem_size
    block_size := elem_size * elem_count
    block_count := 0
    alloc_count := 0
    block_end := 0
    blocks := []
    free_elements := [] }

/-- `mempool_alloc_internal` (lines 92-141).  `realloc_ok` tells whether the
`MEMPOOL_REALLOC` of the block-pointer list succeeds and `malloc_ok` whether
the `malloc` of the new block does.  Mirroring the C control flow:
1. a non-empty free list is popped first;
2. else, when the last block is full or no block exists, `++pool->block_count`
   happens inside the realloc argument, so a failed realloc leaves it
   incremented while `free(pool->blocks)` discards the block list;
3. on a successful realloc the new block is allocated and `block_end` is reset
   to `0` before the null check of that block;
4. finally `element_size` bytes are carved at `block_end` of the last block. -/
def mempool_alloc_internal (pool : mempool_t) (realloc_ok malloc_ok : Bool) :
    Option mempool_addr × mempool_t :=
  match pool.free_elements with
  | p :: rest =>
    (some p, { pool with free_elements := rest, alloc_count := pool.alloc_count + 1 })
  | [] =>
    if pool.block_end = pool.block_size ∨ pool.block_count = 0 then
      let pool1 : mempool_t := { pool with block_count := pool.block_count + 1 }
      if realloc_ok = false then
        (none, { pool1 with blocks := [] })
      else
        let pool2 : mempool_t :=
          { pool1 with blocks := pool1.blocks ++ [malloc_ok], block_end := 0 }
        if malloc_ok = false then
          (none, pool2)
        else
          (some (pool2.block_count - 1, pool2.block_end),
            { pool2 with block_end := pool2.block_end + pool2.element_size,
                         alloc_count := pool2.alloc_count + 1 })
    else
      (some (pool.block_count - 1, pool.block_end),
        { pool with block_end := pool.block_end + pool.element_size,
                    alloc_count := pool.alloc_count + 1 })

/-- `mempool_free` (lines 143-165): decrement `alloc_count`, push the freed
element on the free list, and - when no allocation is left - free every block
and return the pool to its pristine state. -/
def mempool_free (pool : mempool_t) (element : mempool_addr) : mempool_t :=
  let pool1 : mempool_t :=
    { pool with alloc_count := pool.alloc_count - 1,
                free_elements := element :: pool.free_elements }
  if pool1.alloc_count = 0 then
    { pool1 with blocks := [], block_count := 0, block_end := 0, free_elements := [] }
  else pool1

/-! ### List helper lemmas -/

theorem list_getD_set_self {α : Type _} :
    ∀ (l : List α) (i : Nat) (a d : α), i < l.length → (l.set i a).getD i d = a
  | [], i, a, d, h => by simp at h
  | _ :: _, 0, _, _, _ => rfl
  | x :: xs, i + 1, a, d, h =>
    list_getD_set_self xs i a d (Nat.lt_of_succ_lt_succ h)

theorem list_getD_set_ne {α : Type _} :
    ∀ (l : List α) (i j : Nat) (a d : α), i ≠ j → (l.set i a).getD j d = l.getD j d
  | [], _, _, _, _, _ => rfl
  | _ :: _, 0, 0, _, _, hne => absurd rfl hne
  | _ :: _, 0, _ + 1, _, _, _ => rfl
  | _ :: _, _ + 1, 0, _, _, _ => rfl
  | x :: xs, i + 1, j + 1, a, d, hne =>
    list_getD_set_ne xs i j a d (fun h => hne (by omega))

theorem list_getD_replicate_nil {α : Type _} :
    ∀ (n i : Nat), (List.replicate n ([] : List α)).getD i [] = []
  | 0, _ => rfl
  | _ + 1, 0 => rfl
  | n + 1, i + 1 => list_getD_replicate_nil n i

theorem list_flatten_replicate_nil {α : Type _} :
    ∀ (n : Nat), (List.replicate n ([] : List α)).flatten = []
  | 0 => rfl
  | n + 1 => list_flatten_replicate_nil n

theorem list_flatten_replicate_set {α : Type _} :
    ∀ (n i : Nat) (ch : List α), i < n →
      ((List.replicate n ([] : List α)).set i ch).flatten = ch
  | 0, _, _, h => by simp at h
  | n + 1, 0, ch, _ => by
    show ch ++ (List.replicate n ([] : List α)).flatten = ch
    rw [list_flatten_replicate_nil, List.append_nil]
  | n + 1, i + 1, ch, h => by
    show ([] : List α) ++ ((List.replicate n ([] : List α)).set i ch).flatten = ch
    rw [List.nil_append]
    exact list_flatten_replicate_set n i ch (Nat.lt_of_succ_lt_succ h)

theorem list_mem_flatten_getD {α : Type _} (L : List (List α)) (a : α)
    (h : a ∈ L.flatten) : ∃ j, j < L.length ∧ a ∈ L.getD j [] := by
  rcases List.mem_flatten.1 h with ⟨l, hl, hal⟩
  rcases List.mem_iff_getElem.1 hl with ⟨j, hj, rfl⟩
  exact ⟨j, hj, by rwa [List.getD_eq_getElem _ _ hj]⟩

theorem list_flatten_drop_cons {α : Type _} (L : List (List α)) (j : Nat)
    (h : j < L.length) :
    (L.drop j).flatten = L.getD j [] ++ (L.drop (j + 1)).flatten := by
  rw [List.drop_eq_getElem_cons h, List.flatten_cons, List.getD_eq_getElem _ _ h]

theorem list_flatten_drop_of_empty {α : Type _} (L : List (List α)) (i j : Nat)
    (hij : i ≤ j) (hjl : j ≤ L.length)
    (hemp : ∀ l, i ≤ l → l < j → L.getD l [] = []) :
    (L.drop i).flatten = (L.drop j).flatten := by
  by_cases h : i = j
  · rw [h]
  · have hlt : i < j := lt_of_le_of_ne hij h
    have hstep : (L.drop i).flatten = (L.drop (i + 1)).flatten := by
      rw [list_flatten_drop_cons L i (lt_of_lt_of_le hlt hjl), hemp i le_rfl hlt,
        List.nil_append]
    rw [hstep]
    exact list_flatten_drop_of_empty L (i + 1) j hlt hjl
      (fun l hl hl2 => hemp l (le_of_lt (Nat.lt_of_succ_le hl)) hl2)
termination_by j - i

/-! ### Chain-level lemmas

Throughout, `c` plays the role of the table's `compfunc`; the hypotheses
`hsym` and `htr` say that "compares equal" (`c a b = 0`) is symmetric and
transitive, part of C1's consistency assumption on the caller-supplied
equality function. -/

variable {c : κ → κ → Int}

/-- Chains without two entries that compare equal; every bucket of a
well-formed table satisfies this. -/
def chain_nodup (c : κ → κ → Int) (ch : List (hashtable_item κ ν)) : Prop :=
  ch.Pairwise (fun a b => c a.key b.key ≠ 0)

theorem chain_find_eq_none_iff {key : κ} :
    ∀ {ch : List (hashtable_item κ ν)},
      chain_find c key ch = none ↔ ∀ e ∈ ch, c e.key key ≠ 0 := by
  intro ch
  induction ch with
  | nil => simp [chain_find]
  | cons cur rest ih =>
    by_cases h : c cur.key key = 0
    · simp [chain_find, h]
    · simp [chain_find, h, ih]

theorem chain_find_ne_none_of_mem {key : κ} {ch : List (hashtable_item κ ν)}
    {e : hashtable_item κ ν} (he : e ∈ ch) (hek : c e.key key = 0) :
    chain_find c key ch ≠ none := by
  intro hnone
  exact chain_find_eq_none_iff.1 hnone e he hek

theorem chain_find_append {key : κ} (ch₁ ch₂ : List (hashtable_item κ ν)) :
    chain_find c key (ch₁ ++ ch₂) = (chain_find c key ch₁).or (chain_find c key ch₂) := by
  induction ch₁ with
  | nil => simp [chain_find]
  | cons cur rest ih =>
    by_cases h : c cur.key key = 0
    · simp [chain_find, h]
    · simp [chain_find, h, ih]

theorem chain_insert_of_no_match {item : hashtable_item κ ν}
    {ch : List (hashtable_item κ ν)} (h : ∀ e ∈ ch, c e.key item.key ≠ 0) :
    chain_insert c item ch = (none, ch ++ [item]) := by
  induction ch with
  | nil => rfl
  | cons cur rest ih =>
    have hcur : c cur.key item.key ≠ 0 := h cur (by simp)
    simp only [chain_insert, if_neg hcur, ih (fun e he => h e (by simp [he])),
      List.cons_append]

theorem chain_insert_mem {item x : hashtable_item κ ν} :
    ∀ {ch : List (hashtable_item κ ν)}, x ∈ (chain_insert c item ch).2 →
      x = item ∨ x ∈ ch := by
  intro ch
  induction ch with
  | nil => simp [chain_insert]
  | cons cur rest ih =>
    by_cases h : c cur.key item.key = 0
    · simp only [chain_insert, if_pos h]
      intro hx
      rcases List.mem_cons.1 hx with h1 | h1
      · exact Or.inl h1
      · exact Or.inr (List.mem_cons.2 (Or.inr h1))
    · simp only [chain_insert, if_neg h]
      intro hx
      rcases List.mem_cons.1 hx with h1 | h1
      · exact Or.inr (List.mem_cons.2 (Or.inl h1))
      · rcases ih h1 with h2 | h2
        · exact Or.inl h2
        · exact Or.inr (List.mem_cons.2 (Or.inr h2))

theorem chain_insert_length_le {item : hashtable_item κ ν} :
    ∀ (ch : List (hashtable_item κ ν)),
      (chain_insert c item ch).2.length ≤ ch.length + 1 := by
  intro ch
  induction ch with
  | nil => simp [chain_insert]
  | cons cur rest ih =>
    by_cases h : c cur.key item.key = 0
    · simp [chain_insert, h]
    · simp only [chain_insert, if_neg h, List.length_cons]
      omega

theorem chain_insert_find
    (hsym : ∀ a b, c a b = 0 → c b a = 0)
    (htr : ∀ a b d, c a b = 0 → c b d = 0 → c a d = 0)
    {item : hashtable_item κ ν} {k : κ} :
    ∀ (ch : List (hashtable_item κ ν)),
      chain_find c k (chain_insert c item ch).2 =
        if c item.key k = 0 then some item.data else chain_find c k ch := by
  intro ch
  induction ch with
  | nil => simp [chain_insert, chain_find]
  | cons cur rest ih =>
    by_cases hm : c cur.key item.key = 0
    · simp only [chain_insert, if_pos hm]
      by_cases hk : c item.key k = 0
      · simp [chain_find, hk]
      · have hcur : c cur.key k ≠ 0 := fun hcurk =>
          hk (htr _ _ _ (hsym _ _ hm) hcurk)
        simp [chain_find, hk, hcur]
    · simp only [chain_insert, if_neg hm]
      by_cases hk : c item.key k = 0
      · have hcur : c cur.key k ≠ 0 := fun hcurk =>
          hm (htr _ _ _ hcurk (hsym _ _ hk))
        simp [chain_find, hcur, ih, hk]
      · simp [chain_find, ih, hk]

theorem chain_insert_nodup
    (hsym : ∀ a b, c a b = 0 → c b a = 0)
    (htr : ∀ a b d, c a b = 0 → c b d = 0 → c a d = 0)
    {item : hashtable_item κ ν} :
    ∀ {ch : List (hashtable_item κ ν)}, chain_nodup c ch →
      chain_nodup c (chain_insert c item ch).2 := by
  intro ch
  induction ch with
  | nil =>
    intro _
    simp [chain_insert, chain_nodup]
  | cons cur rest ih =>
    intro hnd
    rcases List.pairwise_cons.1 hnd with ⟨hcur, hrest⟩
    by_cases hm : c cur.key item.key = 0
    · simp only [chain_insert, if_pos hm, chain_nodup]
      refine List.pairwise_cons.2 ⟨?_, hrest⟩
      intro e he hcontra
      exact hcur e he (htr _ _ _ hm hcontra)
    · simp only [chain_insert, if_neg hm, chain_nodup]
      refine List.pairwise_cons.2 ⟨?_, ih hrest⟩
      intro e he
      rcases chain_insert_mem he with rfl | h2
      · exact hm
      · exact hcur e h2

theorem chain_remove_fst {key : κ} :
    ∀ (ch : List (hashtable_item κ ν)),
      (chain_remove c key ch).1 = chain_find c key ch := by
  intro ch
  induction ch with
  | nil => rfl
  | cons cur rest ih =>
    by_cases h : c cur.key key = 0 <;> simp [chain_remove, chain_find, h, ih]

theorem chain_remove_sublist {key : κ} :
    ∀ (ch : List (hashtable_item κ ν)), (chain_remove c key ch).2.Sublist ch := by
  intro ch
  induction ch with
  | nil => simp [chain_remove]
  | cons cur rest ih =>
    by_cases h : c cur.key key = 0
    · simp only [chain_remove, if_pos h]
      exact List.sublist_cons_self cur rest
    · simp only [chain_remove, if_neg h]
      exact List.Sublist.cons₂ _ ih

theorem chain_remove_nodup {key : κ} {ch : List (hashtable_item κ ν)}
    (hnd : chain_nodup c ch) : chain_nodup c (chain_remove c key ch).2 :=
  hnd.sublist (chain_remove_sublist ch)

theorem chain_remove_find
    (hsym : ∀ a b, c a b = 0 → c b a = 0)
    (htr : ∀ a b d, c a b = 0 → c b d = 0 → c a d = 0)
    {key k : κ} :
    ∀ {ch : List (hashtable_item κ ν)}, chain_nodup c ch →
      chain_find c k (chain_remove c key ch).2 =
        if c key k = 0 then none else chain_find c k ch := by
  intro ch
  induction ch with
  | nil =>
    intro _
    by_cases h : c key k = 0 <;> simp [chain_remove, chain_find, h]
  | cons cur rest ih =>
    intro hnd
    rcases List.pairwise_cons.1 hnd with ⟨hcur, hrest⟩
    by_cases hm : c cur.key key = 0
    · simp only [chain_remove, if_pos hm]
      by_cases hk : c key k = 0
      · rw [if_pos hk]
        apply chain_find_eq_none_iff.2
        intro e he hek
        have h1 : c e.key key = 0 := htr _ _ _ hek (hsym _ _ hk)
        have h2 : c cur.key e.key = 0 := htr _ _ _ hm (hsym _ _ h1)
        exact hcur e he h2
      · rw [if_neg hk]
        have hcurk : c cur.key k ≠ 0 := fun hc =>
          hk (htr _ _ _ (hsym _ _ hm) hc)
        simp [chain_find, hcurk]
    · simp only [chain_remove, if_neg hm]
      by_cases hk : c key k = 0
      · rw [if_pos hk]
        have hcurk : c cur.key k ≠ 0 := fun hc =>
          hm (htr _ _ _ hc (hsym _ _ hk))
        simp only [chain_find, if_neg hcurk]
        rw [ih hrest, if_pos hk]
      · rw [if_neg hk]
        simp only [chain_find]
        by_cases hcurk : c cur.key k = 0
        · simp [hcurk]
        · simp only [if_neg hcurk]
          rw [ih hrest, if_neg hk]

theorem chain_remove_length {key : κ} :
    ∀ {ch : List (hashtable_item κ ν)}, chain_find c key ch ≠ none →
      (chain_remove c key ch).2.length + 1 = ch.length := by
  intro ch
  induction ch with
  | nil =>
    intro h
    simp [chain_find] at h
  | cons cur rest ih =>
    intro h
    by_cases hm : c cur.key key = 0
    · simp [chain_remove, hm]
    · have hrest : chain_find c key rest ≠ none := by
        simpa [chain_find, hm] using h
      simp only [chain_remove, if_neg hm, List.length_cons]
      have := ih hrest
      omega

/-! ### Table-level well-formedness and the behaviour of the internal insert -/

/-- Well-formedness of a table: the bucket array has `size` slots, every entry
sits in the bucket its hash selects under the current mask, and no bucket
holds two entries that compare equal. -/
def hashtable_wf (t : hashtable_t κ ν) : Prop :=
  t.items.length = t.size ∧
  (∀ i, ∀ e ∈ hashtable_bucket t i, hashtable_index t e.key = i) ∧
  (∀ i, chain_nodup t.compfunc (hashtable_bucket t i))

theorem hashtable_index_lt (t : hashtable_t κ ν) (key : κ) (hpos : 1 ≤ t.size) :
    hashtable_index t key < t.size := by
  have h1 : t.hashfunc key &&& (t.size - 1) ≤ t.size - 1 := Nat.and_le_right
  unfold hashtable_index
  omega

theorem hashtable_find_def (t : hashtable_t κ ν) (k : κ) :
    hashtable_find t k =
      chain_find t.compfunc k (hashtable_bucket t (hashtable_index t k)) := rfl

theorem hashtable_insert_internal_fields (t : hashtable_t κ ν)
    (item : hashtable_item κ ν) :
    (hashtable_insert_internal t item).2.hashfunc = t.hashfunc ∧
    (hashtable_insert_internal t item).2.compfunc = t.compfunc ∧
    (hashtable_insert_internal t item).2.size = t.size ∧
    (hashtable_insert_internal t item).2.count = t.count ∧
    (hashtable_insert_internal t item).2.items.length = t.items.length := by
  refine ⟨rfl, rfl, rfl, rfl, ?_⟩
  simp [hashtable_insert_internal]

theorem hashtable_insert_internal_index (t : hashtable_t κ ν)
    (item : hashtable_item κ ν) (k : κ) :
    hashtable_index (hashtable_insert_internal t item).2 k = hashtable_index t k := rfl

theorem hashtable_insert_internal_bucket_self (t : hashtable_t κ ν)
    (item : hashtable_item κ ν)
    (hlt : hashtable_index t item.key < t.items.length) :
    hashtable_bucket (hashtable_insert_internal t item).2 (hashtable_index t item.key) =
      (chain_insert t.compfunc item
        (hashtable_bucket t (hashtable_index t item.key))).2 := by
  unfold hashtable_bucket hashtable_insert_internal
  exact list_getD_set_self _ _ _ _ hlt

theorem hashtable_insert_internal_bucket_ne (t : hashtable_t κ ν)
    (item : hashtable_item κ ν) (j : Nat)
    (hne : hashtable_index t item.key ≠ j) :
    hashtable_bucket (hashtable_insert_internal t item).2 j = hashtable_bucket t j := by
  unfold hashtable_bucket hashtable_insert_internal
  exact list_getD_set_ne _ _ _ _ _ hne

theorem hashtable_insert_internal_find (t : hashtable_t κ ν)
    (hsym : ∀ a b, t.compfunc a b = 0 → t.compfunc b a = 0)
    (htr : ∀ a b d, t.compfunc a b = 0 → t.compfunc b d = 0 → t.compfunc a d = 0)
    (hhash : ∀ a b, t.compfunc a b = 0 → t.hashfunc a = t.hashfunc b)
    (hlen : t.items.length = t.size) (hpos : 1 ≤ t.size)
    (item : hashtable_item κ ν) (k : κ) :
    hashtable_find (hashtable_insert_internal t item).2 k =
      if t.compfunc item.key k = 0 then some item.data else hashtable_find t k := by
  have hlt : hashtable_index t item.key < t.items.length := by
    rw [hlen]; exact hashtable_index_lt t item.key hpos
  rw [hashtable_find_def, hashtable_insert_internal_index,
    (hashtable_insert_internal_fields t item).2.1]
  by_cases hsame : hashtable_index t k = hashtable_index t item.key
  · rw [hsame, hashtable_insert_internal_bucket_self t item hlt]
    rw [chain_insert_find hsym htr]
    rw [hashtable_find_def, hsame]
  · rw [hashtable_insert_internal_bucket_ne t item _ (fun hx => hsame hx.symm)]
    have hnm : t.compfunc item.key k ≠ 0 := by
      intro hm
      apply hsame
      unfold hashtable_index
      rw [hhash _ _ hm]
    rw [if_neg hnm, hashtable_find_def]

theorem hashtable_insert_internal_wf (t : hashtable_t κ ν)
    (hsym : ∀ a b, t.compfunc a b = 0 → t.compfunc b a = 0)
    (htr : ∀ a b d, t.compfunc a b = 0 → t.compfunc b d = 0 → t.compfunc a d = 0)
    (hwf : hashtable_wf t) (hpos : 1 ≤ t.size) (item : hashtable_item κ ν) :
    hashtable_wf (hashtable_insert_internal t item).2 := by
  obtain ⟨hlen, hwb, hnd⟩ := hwf
  have hlt : hashtable_index t item.key < t.items.length := by
    rw [hlen]; exact hashtable_index_lt t item.key hpos
  refine ⟨?_, ?_, ?_⟩
  · rw [(hashtable_insert_internal_fields t item).2.2.2.2, hlen]
    rfl
  · intro i e he
    rw [hashtable_insert_internal_index]
    by_cases hsame : hashtable_index t item.key = i
    · subst hsame
      rw [hashtable_insert_internal_bucket_self t item hlt] at he
      rcases chain_insert_mem he with rfl | hmem
      · rfl
      · exact hwb _ e hmem
    · rw [hashtable_insert_internal_bucket_ne t item i hsame] at he
      exact hwb i e he
  · intro i
    by_cases hsame : hashtable_index t item.key = i
    · subst hsame
      rw [hashtable_insert_internal_bucket_self t item hlt]
      exact chain_insert_nodup hsym htr (hnd _)
    · rw [hashtable_insert_internal_bucket_ne t item i hsame]
      exact hnd i

/-! ### Entries, the flattened view, and the resize protocol -/

theorem hashtable_wf_entries_pairwise (t : hashtable_t κ ν)
    (hhash : ∀ a b, t.compfunc a b = 0 → t.hashfunc a = t.hashfunc b)
    (hwf : hashtable_wf t) :
    chain_nodup t.compfunc (hashtable_entries t) := by
  obtain ⟨hlen, hwb, hnd⟩ := hwf
  unfold hashtable_entries chain_nodup
  rw [List.pairwise_flatten]
  constructor
  · intro l hl
    rcases List.mem_iff_getElem.1 hl with ⟨j, hj, rfl⟩
    have := hnd j
    rwa [hashtable_bucket, List.getD_eq_getElem _ _ hj] at this
  · rw [List.pairwise_iff_getElem]
    intro i j hi hj hij x hx y hy hcontra
    have hxi : hashtable_index t x.key = i := hwb i x (by
      rw [hashtable_bucket, List.getD_eq_getElem _ _ hi]; exact hx)
    have hyj : hashtable_index t y.key = j := hwb j y (by
      rw [hashtable_bucket, List.getD_eq_getElem _ _ hj]; exact hy)
    have hxy : hashtable_index t x.key = hashtable_index t y.key := by
      unfold hashtable_index
      rw [hhash _ _ hcontra]
    omega

theorem chain_find_flatten_of_confined {k : κ} :
    ∀ (L : List (List (hashtable_item κ ν))) (i : Nat), i < L.length →
      (∀ j, j < L.length → j ≠ i → ∀ e ∈ L.getD j [], c e.key k ≠ 0) →
      chain_find c k L.flatten = chain_find c k (L.getD i []) := by
  intro L
  induction L with
  | nil =>
    intro i hi
    simp at hi
  | cons b rest ih =>
    intro i hi hconf
    rw [List.flatten_cons, chain_find_append]
    cases i with
    | zero =>
      rw [show ((b :: rest).getD 0 []) = b from rfl]
      cases hfb : chain_find c k b with
      | some v => rfl
      | none =>
        have hrest : chain_find c k rest.flatten = none := by
          apply chain_find_eq_none_iff.2
          intro e he
          rcases list_mem_flatten_getD rest e he with ⟨j, hj, hmem⟩
          exact hconf (j + 1) (by simpa using Nat.succ_lt_succ hj) (by omega) e hmem
        rw [Option.none_or, hrest]
    | succ i' =>
      have hb : chain_find c k b = none := by
        apply chain_find_eq_none_iff.2
        intro e he
        exact hconf 0 (by omega) (by omega) e he
      rw [hb]
      show Option.or none _ = chain_find c k (rest.getD i' [])
      rw [Option.none_or]
      exact ih i' (by simpa using Nat.lt_of_succ_lt_succ hi)
        (fun j hj hne e he =>
          hconf (j + 1) (by simpa using Nat.succ_lt_succ hj) (by omega) e he)

theorem hashtable_find_eq_chain_find_entries (t : hashtable_t κ ν)
    (hhash : ∀ a b, t.compfunc a b = 0 → t.hashfunc a = t.hashfunc b)
    (hwf : hashtable_wf t) (hpos : 1 ≤ t.size) (k : κ) :
    chain_find t.compfunc k (hashtable_entries t) = hashtable_find t k := by
  obtain ⟨hlen, hwb, hnd⟩ := hwf
  have hlt : hashtable_index t k < t.items.length := by
    rw [hlen]; exact hashtable_index_lt t k hpos
  unfold hashtable_entries
  rw [chain_find_flatten_of_confined t.items (hashtable_index t k) hlt ?_]
  · rfl
  · intro j hj hne e he hmatch
    have h1 : hashtable_index t e.key = j := hwb j e he
    have h2 : hashtable_index t e.key = hashtable_index t k := by
      unfold hashtable_index
      rw [hhash _ _ hmatch]
    omega

theorem hashtable_find_ne_none_of_mem (t : hashtable_t κ ν)
    (hhash : ∀ a b, t.compfunc a b = 0 → t.hashfunc a = t.hashfunc b)
    (hwf : hashtable_wf t) (hpos : 1 ≤ t.size) {e : hashtable_item κ ν} {k : κ}
    (he : e ∈ hashtable_entries t) (hek : t.compfunc e.key k = 0) :
    hashtable_find t k ≠ none := by
  rw [← hashtable_find_eq_chain_find_entries t hhash hwf hpos k]
  exact chain_find_ne_none_of_mem he hek

theorem hashtable_fold_insert_fields :
    ∀ (es : List (hashtable_item κ ν)) (t : hashtable_t κ ν),
      (es.foldl (fun acc it => (hashtable_insert_internal acc it).2) t).hashfunc
          = t.hashfunc ∧
      (es.foldl (fun acc it => (hashtable_insert_internal acc it).2) t).compfunc
          = t.compfunc ∧
      (es.foldl (fun acc it => (hashtable_insert_internal acc it).2) t).size = t.size ∧
      (es.foldl (fun acc it => (hashtable_insert_internal acc it).2) t).count = t.count
  | [], t => ⟨rfl, rfl, rfl, rfl⟩
  | e :: rest, t => by
    have h1 := hashtable_fold_insert_fields rest (hashtable_insert_internal t e).2
    exact h1

theorem hashtable_fold_insert_correct
    (h : κ → Nat) (c : κ → κ → Int)
    (hsym : ∀ a b, c a b = 0 → c b a = 0)
    (htr : ∀ a b d, c a b = 0 → c b d = 0 → c a d = 0)
    (hhash : ∀ a b, c a b = 0 → h a = h b) :
    ∀ (es : List (hashtable_item κ ν)) (t : hashtable_t κ ν),
      t.compfunc = c → t.hashfunc = h →
      hashtable_wf t → 1 ≤ t.size →
      es.Pairwise (fun a b => c a.key b.key ≠ 0) →
      (∀ e ∈ es, hashtable_find t e.key = none) →
      (hashtable_wf (es.foldl (fun acc it => (hashtable_insert_internal acc it).2) t) ∧
       ∀ k, hashtable_find (es.foldl (fun acc it => (hashtable_insert_internal acc it).2) t) k
          = (chain_find c k es).or (hashtable_find t k)) := by
  intro es
  induction es with
  | nil =>
    intro t hc hh hwf hpos _ _
    exact ⟨hwf, fun k => by simp [chain_find, Option.none_or]⟩
  | cons e rest ih =>
    intro t hc hh hwf hpos hpw hfresh
    rcases List.pairwise_cons.1 hpw with ⟨hehead, hpwrest⟩
    have hsym' : ∀ a b, t.compfunc a b = 0 → t.compfunc b a = 0 := by rw [hc]; exact hsym
    have htr' : ∀ a b d, t.compfunc a b = 0 → t.compfunc b d = 0 → t.compfunc a d = 0 := by
      rw [hc]; exact htr
    have hlen : t.items.length = t.size := hwf.1
    have hfind1 : ∀ k, hashtable_find (hashtable_insert_internal t e).2 k =
        if c e.key k = 0 then some e.data else hashtable_find t k := by
      intro k
      rw [← hc]
      exact hashtable_insert_internal_find t hsym' htr'
        (by rw [hc, hh]; exact hhash) hlen hpos e k
    have hwf1 : hashtable_wf (hashtable_insert_internal t e).2 :=
      hashtable_insert_internal_wf t hsym' htr' hwf hpos e
    have hres := ih (hashtable_insert_internal t e).2 hc hh hwf1 hpos hpwrest ?_
    · refine ⟨hres.1, ?_⟩
      intro k
      have := hres.2 k
      rw [List.foldl_cons] at *
      rw [this, hfind1 k]
      by_cases hm : c e.key k = 0
      · have hrestnone : chain_find c k rest = none := by
          apply chain_find_eq_none_iff.2
          intro x hx hxk
          exact hehead x hx (htr _ _ _ hm (hsym _ _ hxk))
        simp [chain_find, hm, hrestnone, Option.or]
      · simp [chain_find, hm]
    · intro x hx
      rw [hfind1 x.key, if_neg (fun hcon => hehead x hx hcon)]
      exact hfresh x (by simp [hx])

theorem hashtable_resize_correct
    (h : κ → Nat) (c : κ → κ → Int)
    (hsym : ∀ a b, c a b = 0 → c b a = 0)
    (htr : ∀ a b d, c a b = 0 → c b d = 0 → c a d = 0)
    (hhash : ∀ a b, c a b = 0 → h a = h b)
    (t : hashtable_t κ ν) (d : Int)
    (hc : t.compfunc = c) (hh : t.hashfunc = h)
    (hwf : hashtable_wf t) (hpos : 1 ≤ t.size)
    (hd : d = 1 ∨ d = -1)
    (hpos2 : 1 ≤ (if d = 1 then t.size * 2 else t.size / 2)) :
    (hashtable_resize t d).compfunc = c ∧
    (hashtable_resize t d).hashfunc = h ∧
    (hashtable_resize t d).size = (if d = 1 then t.size * 2 else t.size / 2) ∧
    (hashtable_resize t d).count = t.count ∧
    hashtable_wf (hashtable_resize t d) ∧
    ∀ k, hashtable_find (hashtable_resize t d) k = hashtable_find t k := by
  unfold hashtable_resize
  rw [if_pos hd]
  set ns := if d = 1 then t.size * 2 else t.size / 2 with hns
  set t0 : hashtable_t κ ν := { t with size := ns, items := List.replicate ns [] } with ht0
  have ht0wf : hashtable_wf t0 := by
    refine ⟨by simp [ht0], ?_, ?_⟩
    · intro i e he
      rw [show hashtable_bucket t0 i = [] from list_getD_replicate_nil ns i] at he
      simp at he
    · intro i
      rw [show hashtable_bucket t0 i = [] from list_getD_replicate_nil ns i]
      exact List.Pairwise.nil
  have ht0find : ∀ k, hashtable_find t0 k = none := by
    intro k
    rw [hashtable_find_def,
      show hashtable_bucket t0 (hashtable_index t0 k) = [] from
        list_getD_replicate_nil ns _]
    rfl
  have hpw : (t.items.flatten).Pairwise (fun a b => c a.key b.key ≠ 0) := by
    have := hashtable_wf_entries_pairwise t (by rw [hc, hh]; exact hhash) hwf
    unfold chain_nodup hashtable_entries at this
    rwa [hc] at this
  have hres := hashtable_fold_insert_correct h c hsym htr hhash t.items.flatten t0
    hc hh ht0wf hpos2 hpw (fun e _ => ht0find e.key)
  have hfields := hashtable_fold_insert_fields t.items.flatten t0
  refine ⟨by rw [hfields.2.1, hc], by rw [hfields.1, hh], by rw [hfields.2.2.1],
    by rw [hfields.2.2.2], hres.1, ?_⟩
  intro k
  rw [hres.2 k, ht0find k]
  show (chain_find c k t.items.flatten).or none = hashtable_find t k
  rw [Option.or_none, ← hc]
  exact hashtable_find_eq_chain_find_entries t (by rw [hc, hh]; exact hhash) hwf hpos k

/-! ### The bucket scan of pop and of the iterator -/

theorem chain_remove_of_not_found {key : κ} :
    ∀ {ch : List (hashtable_item κ ν)}, chain_find c key ch = none →
      chain_remove c key ch = (none, ch) := by
  intro ch
  induction ch with
  | nil => intro _; rfl
  | cons cur rest ih =>
    intro hnone
    have hcur : c cur.key key ≠ 0 := by
      intro hc
      simp [chain_find, hc] at hnone
    have hrest : chain_find c key rest = none := by
      simpa [chain_find, hcur] using hnone
    simp [chain_remove, hcur, ih hrest]

theorem hashtable_first_nonempty_go_spec_some (t : hashtable_t κ ν) :
    ∀ (fuel i j : Nat), hashtable_first_nonempty_go t fuel i = some j →
      i ≤ j ∧ j < t.size ∧ hashtable_bucket t j ≠ [] ∧
        ∀ l, i ≤ l → l < j → hashtable_bucket t l = [] := by
  intro fuel
  induction fuel with
  | zero =>
    intro i j hj
    exact absurd hj (by simp [hashtable_first_nonempty_go])
  | succ fuel ih =>
    intro i j hj
    unfold hashtable_first_nonempty_go at hj
    by_cases hi : i < t.size
    · rw [if_pos hi] at hj
      by_cases hb : (hashtable_bucket t i).isEmpty
      · rw [if_pos hb] at hj
        have hrec := ih (i + 1) j hj
        refine ⟨by omega, hrec.2.1, hrec.2.2.1, ?_⟩
        intro l hl1 hl2
        rcases Nat.eq_or_lt_of_le hl1 with rfl | hl
        · exact List.isEmpty_iff.1 hb
        · exact hrec.2.2.2 l hl hl2
      · rw [if_neg hb] at hj
        cases hj
        refine ⟨le_rfl, hi, ?_, fun l hl1 hl2 => by omega⟩
        intro hc
        rw [hc] at hb
        exact hb rfl
    · rw [if_neg hi] at hj
      exact absurd hj (by simp)

theorem hashtable_first_nonempty_go_spec_none (t : hashtable_t κ ν) :
    ∀ (fuel i : Nat), t.size ≤ i + fuel →
      hashtable_first_nonempty_go t fuel i = none →
      ∀ l, i ≤ l → l < t.size → hashtable_bucket t l = [] := by
  intro fuel
  induction fuel with
  | zero =>
    intro i hfuel _ l hl1 hl2
    omega
  | succ fuel ih =>
    intro i hfuel hnone l hl1 hl2
    have hi : i < t.size := by omega
    unfold hashtable_first_nonempty_go at hnone
    rw [if_pos hi] at hnone
    by_cases hb : (hashtable_bucket t i).isEmpty
    · rw [if_pos hb] at hnone
      rcases Nat.eq_or_lt_of_le hl1 with rfl | hl
      · exact List.isEmpty_iff.1 hb
      · exact ih (i + 1) (by omega) hnone l hl hl2
    · rw [if_neg hb] at hnone
      exact absurd hnone (by simp)

theorem hashtable_first_nonempty_spec_some (t : hashtable_t κ ν) (i j : Nat)
    (hj : hashtable_first_nonempty t i = some j) :
    i ≤ j ∧ j < t.size ∧ hashtable_bucket t j ≠ [] ∧
      ∀ l, i ≤ l → l < j → hashtable_bucket t l = [] :=
  hashtable_first_nonempty_go_spec_some t (t.size - i) i j hj

theorem hashtable_first_nonempty_spec_none (t : hashtable_t κ ν) (i : Nat)
    (hnone : hashtable_first_nonempty t i = none) :
    ∀ l, i ≤ l → l < t.size → hashtable_bucket t l = [] :=
  hashtable_first_nonempty_go_spec_none t (t.size - i) i (by omega) hnone

theorem hashtable_entries_of_scan_some (t : hashtable_t κ ν)
    (hlen : t.items.length = t.size) {i : Nat}
    (hscan : hashtable_first_nonempty t 0 = some i) :
    hashtable_entries t = hashtable_bucket t i ++ (t.items.drop (i + 1)).flatten := by
  obtain ⟨_, hi, _, hemp⟩ := hashtable_first_nonempty_spec_some t 0 i hscan
  unfold hashtable_entries
  have h0 : t.items.flatten = (t.items.drop 0).flatten := by rw [List.drop_zero]
  rw [h0, list_flatten_drop_of_empty t.items 0 i (by omega) (by omega)
      (fun l hl1 hl2 => hemp l (by omega) hl2),
    list_flatten_drop_cons t.items i (by omega)]
  rfl

theorem hashtable_entries_of_scan_none (t : hashtable_t κ ν)
    (hlen : t.items.length = t.size)
    (hscan : hashtable_first_nonempty t 0 = none) :
    hashtable_entries t = [] := by
  have hemp := hashtable_first_nonempty_spec_none t 0 hscan
  unfold hashtable_entries
  have h0 : t.items.flatten = (t.items.drop 0).flatten := by rw [List.drop_zero]
  rw [h0, list_flatten_drop_of_empty t.items 0 t.size (by omega) (by omega)
      (fun l hl1 hl2 => hemp l (by omega) hl2)]
  rw [← hlen, List.drop_length]
  rfl

/-! ### Characterizations of the top-level operations -/

theorem hashtable_remove_shrink_cond_iff (count size : Nat) :
    hashtable_remove_shrink_cond count size = true ↔ count * 100 < size * 30 := by
  simp [hashtable_remove_shrink_cond, HASHTABLE_SIZE_TOLERANCE]

theorem hashtable_pop_shrink_cond_iff (count size : Nat) :
    hashtable_pop_shrink_cond count size = true ↔ count * 100 ≤ size * 30 := by
  simp [hashtable_pop_shrink_cond, HASHTABLE_SIZE_TOLERANCE]

theorem hashtable_insert_eq (t : hashtable_t κ ν) (key : κ) (data : ν) :
    hashtable_insert t key data =
      hashtable_insert_internal
        (if (t.count + 1) * 100 ≥ t.size * HASHTABLE_SIZE_TOLERANCE then
          hashtable_resize { t with count := t.count + 1 } 1
         else { t with count := t.count + 1 }) ⟨key, data⟩ := rfl

theorem hashtable_remove_not_found (t : hashtable_t κ ν) (key : κ)
    (hnf : hashtable_find t key = none) :
    hashtable_remove t key = (none, t) := by
  simp only [hashtable_remove]
  rw [show (chain_remove t.compfunc key
      (hashtable_bucket t (hashtable_index t key))).1 = none from
    (chain_remove_fst _).trans hnf]

theorem hashtable_remove_found (t : hashtable_t κ ν) (key : κ) {data : ν}
    (hf : hashtable_find t key = some data) :
    hashtable_remove t key =
      (if hashtable_remove_shrink_cond (t.count - 1) t.size then
        (some data,
          hashtable_resize
            { t with
              items := t.items.set (hashtable_index t key)
                (chain_remove t.compfunc key
                  (hashtable_bucket t (hashtable_index t key))).2,
              count := t.count - 1 } (-1))
       else
        (some data,
          { t with
            items := t.items.set (hashtable_index t key)
              (chain_remove t.compfunc key
                (hashtable_bucket t (hashtable_index t key))).2,
            count := t.count - 1 })) := by
  simp only [hashtable_remove]
  rw [show (chain_remove t.compfunc key
      (hashtable_bucket t (hashtable_index t key))).1 = some data from
    (chain_remove_fst _).trans hf]

theorem hashtable_pop_empty (t : hashtable_t κ ν)
    (hscan : hashtable_first_nonempty t 0 = none) :
    hashtable_pop t = (none, t) := by
  simp only [hashtable_pop, hscan]

theorem hashtable_pop_found (t : hashtable_t κ ν) {i : Nat}
    {cur : hashtable_item κ ν} {rest : List (hashtable_item κ ν)}
    (hscan : hashtable_first_nonempty t 0 = some i)
    (hb : hashtable_bucket t i = cur :: rest) :
    hashtable_pop t =
      (if hashtable_pop_shrink_cond (t.count - 1) t.size then
        (some cur.data,
          hashtable_resize
            { t with items := t.items.set i rest, count := t.count - 1 } (-1))
       else
        (some cur.data,
          { t with items := t.items.set i rest, count := t.count - 1 })) := by
  simp only [hashtable_pop, hscan, hb]

/-! ### The operation-level invariant tying the table to the reference model -/

/-- The simulation invariant of the main correctness argument: the table is
well-formed, non-degenerate (`1 ≤ size`), and looks up exactly like the flat
reference model `m`; the model never holds more associations than `count`,
and a table shrunk to a single bucket is necessarily empty. -/
def hashtable_inv (h : κ → Nat) (c : κ → κ → Int)
    (t : hashtable_t κ ν) (m : List (hashtable_item κ ν)) : Prop :=
  t.hashfunc = h ∧ t.compfunc = c ∧
  hashtable_wf t ∧ 1 ≤ t.size ∧
  chain_nodup c m ∧
  (∀ k, hashtable_find t k = chain_find c k m) ∧
  m.length ≤ t.count ∧
  (t.size = 1 → m = [])

theorem hashtable_inv_init (h : κ → Nat) (c : κ → κ → Int) :
    hashtable_inv h c (hashtable_create_internal h c : hashtable_t κ ν) [] := by
  refine ⟨rfl, rfl, ⟨?_, ?_, ?_⟩, ?_, List.Pairwise.nil, ?_, ?_, ?_⟩
  · simp [hashtable_create_internal]
  · intro i e he
    rw [show hashtable_bucket (hashtable_create_internal h c : hashtable_t κ ν) i = []
      from list_getD_replicate_nil _ i] at he
    simp at he
  · intro i
    rw [show hashtable_bucket (hashtable_create_internal h c : hashtable_t κ ν) i = []
      from list_getD_replicate_nil _ i]
    exact List.Pairwise.nil
  · show 1 ≤ HASHTABLE_DEFAULT_SIZE
    decide
  · intro k
    rw [hashtable_find_def, show hashtable_bucket
      (hashtable_create_internal h c : hashtable_t κ ν) _ = []
      from list_getD_replicate_nil _ _]
    rfl
  · simp
  · intro h1
    have h2 : HASHTABLE_DEFAULT_SIZE = 1 := h1
    exact absurd h2 (by decide)

theorem hashtable_inv_insert (h : κ → Nat) (c : κ → κ → Int)
    (hsym : ∀ a b, c a b = 0 → c b a = 0)
    (htr : ∀ a b d, c a b = 0 → c b d = 0 → c a d = 0)
    (hhash : ∀ a b, c a b = 0 → h a = h b)
    (t : hashtable_t κ ν) (m : List (hashtable_item κ ν))
    (hinv : hashtable_inv h c t m) (key : κ) (data : ν) :
    hashtable_inv h c (hashtable_insert t key data).2
      (chain_insert c ⟨key, data⟩ m).2 := by
  obtain ⟨hh, hc, hwf, hpos, hnd, hfind, hmlen, hone⟩ := hinv
  rw [hashtable_insert_eq]
  have hc1 : ({ t with count := t.count + 1 } : hashtable_t κ ν).compfunc = c := hc
  have hh1 : ({ t with count := t.count + 1 } : hashtable_t κ ν).hashfunc = h := hh
  have hwf1 : hashtable_wf ({ t with count := t.count + 1 } : hashtable_t κ ν) := hwf
  have hpos1 : 1 ≤ ({ t with count := t.count + 1 } : hashtable_t κ ν).size := hpos
  have hfind1 : ∀ k,
      hashtable_find ({ t with count := t.count + 1 } : hashtable_t κ ν) k
        = chain_find c k m := hfind
  by_cases hgrow : (t.count + 1) * 100 ≥ t.size * HASHTABLE_SIZE_TOLERANCE
  · rw [if_pos hgrow]
    obtain ⟨hc2, hh2, hsize2, hcount2, hwf2, hfind2⟩ :=
      hashtable_resize_correct h c hsym htr hhash
        ({ t with count := t.count + 1 } : hashtable_t κ ν) 1 hc1 hh1 hwf1 hpos1
        (Or.inl rfl) (by norm_num; omega)
    simp only [if_pos] at hsize2
    set t2 : hashtable_t κ ν :=
      hashtable_resize ({ t with count := t.count + 1 } : hashtable_t κ ν) 1 with ht2
    have hcount2' : t2.count = t.count + 1 := hcount2
    have hsym2 : ∀ a b, t2.compfunc a b = 0 → t2.compfunc b a = 0 := by
      rw [hc2]; exact hsym
    have htr2 : ∀ a b d, t2.compfunc a b = 0 → t2.compfunc b d = 0 → t2.compfunc a d = 0 := by
      rw [hc2]; exact htr
    have hhash2 : ∀ a b, t2.compfunc a b = 0 → t2.hashfunc a = t2.hashfunc b := by
      rw [hc2, hh2]; exact hhash
    have hpos2 : 1 ≤ t2.size := by omega
    have hfields := hashtable_insert_internal_fields t2 (⟨key, data⟩ : hashtable_item κ ν)
    refine ⟨?_, ?_, ?_, ?_, ?_, ?_, ?_, ?_⟩
    · rw [hfields.1, hh2]
    · rw [hfields.2.1, hc2]
    · exact hashtable_insert_internal_wf t2 hsym2 htr2 hwf2 hpos2 _
    · rw [hfields.2.2.1]; omega
    · exact chain_insert_nodup hsym htr hnd
    · intro k
      rw [hashtable_insert_internal_find t2 hsym2 htr2 hhash2 hwf2.1 hpos2 _ k,
        chain_insert_find hsym htr m, hc2, hfind2 k, hfind1 k]
    · have hlen1 := @chain_insert_length_le κ ν c ⟨key, data⟩ m
      rw [hfields.2.2.2.1, hcount2']
      omega
    · intro hs
      rw [hfields.2.2.1] at hs
      omega
  · rw [if_neg hgrow]
    have hfields := hashtable_insert_internal_fields
      ({ t with count := t.count + 1 } : hashtable_t κ ν) (⟨key, data⟩ : hashtable_item κ ν)
    have hsym1 : ∀ a b, ({ t with count := t.count + 1 } : hashtable_t κ ν).compfunc a b = 0 →
        ({ t with count := t.count + 1 } : hashtable_t κ ν).compfunc b a = 0 := by
      rw [hc1]; exact hsym
    have htr1 : ∀ a b d, ({ t with count := t.count + 1 } : hashtable_t κ ν).compfunc a b = 0 →
        ({ t with count := t.count + 1 } : hashtable_t κ ν).compfunc b d = 0 →
        ({ t with count := t.count + 1 } : hashtable_t κ ν).compfunc a d = 0 := by
      rw [hc1]; exact htr
    have hhash1 : ∀ a b, ({ t with count := t.count + 1 } : hashtable_t κ ν).compfunc a b = 0 →
        ({ t with count := t.count + 1 } : hashtable_t κ ν).hashfunc a =
        ({ t with count := t.count + 1 } : hashtable_t κ ν).hashfunc b := by
      rw [hc1, hh1]; exact hhash
    refine ⟨?_, ?_, ?_, ?_, ?_, ?_, ?_, ?_⟩
    · rw [hfields.1]; exact hh1
    · rw [hfields.2.1]; exact hc1
    · exact hashtable_insert_internal_wf _ hsym1 htr1 hwf1 hpos1 _
    · rw [hfields.2.2.1]; exact hpos1
    · exact chain_insert_nodup hsym htr hnd
    · intro k
      rw [hashtable_insert_internal_find _ hsym1 htr1 hhash1 hwf1.1 hpos1 _ k,
        chain_insert_find hsym htr m, hfind1 k, hc1]
    · have hlen1 := @chain_insert_length_le κ ν c ⟨key, data⟩ m
      rw [hfields.2.2.2.1]
      show _ ≤ t.count + 1
      omega
    · intro hs
      rw [hfields.2.2.1] at hs
      have hs' : t.size = 1 := hs
      simp only [HASHTABLE_SIZE_TOLERANCE] at hgrow
      omega

/-! ### Bucket-surgery helper lemmas (shared by remove and pop) -/

theorem hashtable_set_bucket_bucket_self (t : hashtable_t κ ν) (i : Nat)
    (ch : List (hashtable_item κ ν)) (cnt : Nat) (hi : i < t.items.length) :
    hashtable_bucket
      ({ t with items := t.items.set i ch, count := cnt } : hashtable_t κ ν) i = ch :=
  list_getD_set_self _ _ _ _ hi

theorem hashtable_set_bucket_bucket_ne (t : hashtable_t κ ν) (i : Nat)
    (ch : List (hashtable_item κ ν)) (cnt : Nat) (j : Nat) (hne : i ≠ j) :
    hashtable_bucket
      ({ t with items := t.items.set i ch, count := cnt } : hashtable_t κ ν) j =
      hashtable_bucket t j :=
  list_getD_set_ne _ _ _ _ _ hne

theorem hashtable_set_bucket_find (t : hashtable_t κ ν) (i : Nat)
    (ch : List (hashtable_item κ ν)) (cnt : Nat) (hi : i < t.items.length) (k : κ) :
    hashtable_find
      ({ t with items := t.items.set i ch, count := cnt } : hashtable_t κ ν) k =
      if hashtable_index t k = i then chain_find t.compfunc k ch
      else hashtable_find t k := by
  rw [hashtable_find_def]
  by_cases hsame : hashtable_index t k = i
  · rw [if_pos hsame]
    show chain_find t.compfunc k
      (hashtable_bucket
        ({ t with items := t.items.set i ch, count := cnt } : hashtable_t κ ν)
        (hashtable_index t k)) = _
    rw [hsame, hashtable_set_bucket_bucket_self t i ch cnt hi]
  · rw [if_neg hsame]
    show chain_find t.compfunc k
      (hashtable_bucket
        ({ t with items := t.items.set i ch, count := cnt } : hashtable_t κ ν)
        (hashtable_index t k)) = _
    rw [hashtable_set_bucket_bucket_ne t i ch cnt _ (fun hx => hsame hx.symm),
      hashtable_find_def]

theorem hashtable_set_bucket_wf (t : hashtable_t κ ν) (i : Nat)
    (ch : List (hashtable_item κ ν)) (cnt : Nat) (hi : i < t.items.length)
    (hsub : ∀ e ∈ ch, e ∈ hashtable_bucket t i)
    (hndch : chain_nodup t.compfunc ch) (hwf : hashtable_wf t) :
    hashtable_wf
      ({ t with items := t.items.set i ch, count := cnt } : hashtable_t κ ν) := by
  obtain ⟨hlen, hwb, hnd⟩ := hwf
  refine ⟨?_, ?_, ?_⟩
  · show (t.items.set i ch).length = t.size
    rw [List.length_set]
    exact hlen
  · intro j e he
    show hashtable_index t e.key = j
    by_cases hsame : i = j
    · subst hsame
      rw [hashtable_set_bucket_bucket_self t i ch cnt hi] at he
      exact hwb i e (hsub e he)
    · rw [hashtable_set_bucket_bucket_ne t i ch cnt j hsame] at he
      exact hwb j e he
  · intro j
    show chain_nodup t.compfunc _
    by_cases hsame : i = j
    · subst hsame
      rw [hashtable_set_bucket_bucket_self t i ch cnt hi]
      exact hndch
    · rw [hashtable_set_bucket_bucket_ne t i ch cnt j hsame]
      exact hnd j

theorem hashtable_inv_remove (h : κ → Nat) (c : κ → κ → Int)
    (hsym : ∀ a b, c a b = 0 → c b a = 0)
    (htr : ∀ a b d, c a b = 0 → c b d = 0 → c a d = 0)
    (hhash : ∀ a b, c a b = 0 → h a = h b)
    (t : hashtable_t κ ν) (m : List (hashtable_item κ ν))
    (hinv : hashtable_inv h c t m) (key : κ) :
    hashtable_inv h c (hashtable_remove t key).2 (chain_remove c key m).2 := by
  obtain ⟨hh, hc, hwf, hpos, hnd, hfind, hmlen, hone⟩ := hinv
  cases hf : hashtable_find t key with
  | none =>
    rw [hashtable_remove_not_found t key hf]
    have hmn : chain_find c key m = none := by rw [← hfind key]; exact hf
    rw [chain_remove_of_not_found hmn]
    exact ⟨hh, hc, hwf, hpos, hnd, hfind, hmlen, hone⟩
  | some data =>
    have hfm : chain_find c key m = some data := by rw [← hfind key]; exact hf
    have hm1 : 1 ≤ m.length := by
      cases m with
      | nil => simp [chain_find] at hfm
      | cons a l => simp
    have hsize2 : 2 ≤ t.size := by
      rcases Nat.eq_or_lt_of_le hpos with h1 | h1
      · exfalso
        rw [hone h1.symm] at hfm
        simp [chain_find] at hfm
      · omega
    have hidxlt : hashtable_index t key < t.items.length := by
      rw [hwf.1]
      exact hashtable_index_lt t key hpos
    rw [hashtable_remove_found t key hf]
    have hndbucket := hwf.2.2 (hashtable_index t key)
    have hsub : ∀ e ∈ (chain_remove t.compfunc key
        (hashtable_bucket t (hashtable_index t key))).2,
        e ∈ hashtable_bucket t (hashtable_index t key) :=
      fun e he => (chain_remove_sublist _).subset he
    have hwf1 : hashtable_wf ({ t with
        items := t.items.set (hashtable_index t key)
          (chain_remove t.compfunc key (hashtable_bucket t (hashtable_index t key))).2,
        count := t.count - 1 } : hashtable_t κ ν) :=
      hashtable_set_bucket_wf t _ _ _ hidxlt hsub (chain_remove_nodup hndbucket) hwf
    have hsym' : ∀ a b, t.compfunc a b = 0 → t.compfunc b a = 0 := by
      rw [hc]; exact hsym
    have htr' : ∀ a b d, t.compfunc a b = 0 → t.compfunc b d = 0 → t.compfunc a d = 0 := by
      rw [hc]; exact htr
    have hfind1 : ∀ k, hashtable_find ({ t with
        items := t.items.set (hashtable_index t key)
          (chain_remove t.compfunc key (hashtable_bucket t (hashtable_index t key))).2,
        count := t.count - 1 } : hashtable_t κ ν) k =
        if c key k = 0 then none else hashtable_find t k := by
      intro k
      rw [hashtable_set_bucket_find t _ _ _ hidxlt k]
      by_cases hsame : hashtable_index t k = hashtable_index t key
      · rw [if_pos hsame, chain_remove_find hsym' htr' hndbucket, hc]
        by_cases hkk : c key k = 0
        · rw [if_pos hkk, if_pos hkk]
        · rw [if_neg hkk, if_neg hkk, hashtable_find_def, hsame, hc]
      · rw [if_neg hsame]
        have hkk : c key k ≠ 0 := by
          intro hkk
          apply hsame
          have hkey : h key = h k := hhash _ _ hkk
          show t.hashfunc k &&& (t.size - 1) = t.hashfunc key &&& (t.size - 1)
          rw [hh, ← hkey]
        rw [if_neg hkk]
    have hmodelfind : ∀ k, chain_find c k (chain_remove c key m).2 =
        if c key k = 0 then none else chain_find c k m :=
      fun k => chain_remove_find hsym htr hnd
    have hmodelnd : chain_nodup c (chain_remove c key m).2 := chain_remove_nodup hnd
    have hmodellen : (chain_remove c key m).2.length + 1 = m.length :=
      chain_remove_length (by rw [hfm]; simp)
    by_cases hcond : hashtable_remove_shrink_cond (t.count - 1) t.size = true
    · rw [if_pos hcond]
      have harith := (hashtable_remove_shrink_cond_iff (t.count - 1) t.size).1 hcond
      obtain ⟨hc2, hh2, hsize2', hcount2, hwf2, hfind2⟩ :=
        hashtable_resize_correct h c hsym htr hhash
          ({ t with
            items := t.items.set (hashtable_index t key)
              (chain_remove t.compfunc key
                (hashtable_bucket t (hashtable_index t key))).2,
            count := t.count - 1 } : hashtable_t κ ν) (-1) hc hh hwf1
          (by show 1 ≤ t.size; omega) (Or.inr rfl)
          (by norm_num; show 1 ≤ t.size / 2; omega)
      norm_num at hsize2'
      refine ⟨hh2, hc2, hwf2, ?_, hmodelnd, ?_, ?_, ?_⟩
      · rw [hsize2']
        show 1 ≤ t.size / 2
        omega
      · intro k
        rw [hfind2 k, hfind1 k, hmodelfind k]
        by_cases hkk : c key k = 0
        · rw [if_pos hkk, if_pos hkk]
        · rw [if_neg hkk, if_neg hkk, hfind k]
      · rw [hcount2]
        show _ ≤ t.count - 1
        omega
      · intro hs
        rw [hsize2'] at hs
        have hsize3 : t.size ≤ 3 := by omega
        have hcz : t.count - 1 = 0 := by
          simp only [HASHTABLE_SIZE_TOLERANCE] at harith
          nlinarith [harith]
        have hlenz : (chain_remove c key m).2.length = 0 := by omega
        exact List.length_eq_zero.1 hlenz
    · rw [if_neg hcond]
      refine ⟨hh, hc, hwf1, ?_, hmodelnd, ?_, ?_, ?_⟩
      · show 1 ≤ t.size
        omega
      · intro k
        rw [hfind1 k, hmodelfind k]
        by_cases hkk : c key k = 0
        · rw [if_pos hkk, if_pos hkk]
        · rw [if_neg hkk, if_neg hkk, hfind k]
      · show _ ≤ t.count - 1
        omega
      · intro hs
        have hs' : t.size = 1 := hs
        omega

theorem hashtable_inv_pop (h : κ → Nat) (c : κ → κ → Int)
    (hrefl : ∀ a, c a a = 0)
    (hsym : ∀ a b, c a b = 0 → c b a = 0)
    (htr : ∀ a b d, c a b = 0 → c b d = 0 → c a d = 0)
    (hhash : ∀ a b, c a b = 0 → h a = h b)
    (t : hashtable_t κ ν) (m : List (hashtable_item κ ν))
    (hinv : hashtable_inv h c t m) :
    hashtable_inv h c (hashtable_pop t).2
      (hashtable_model_step c t m hashtable_op.pop) := by
  obtain ⟨hh, hc, hwf, hpos, hnd, hfind, hmlen, hone⟩ := hinv
  cases hscan : hashtable_first_nonempty t 0 with
  | none =>
    rw [hashtable_pop_empty t hscan]
    have hentries : hashtable_entries t = [] :=
      hashtable_entries_of_scan_none t hwf.1 hscan
    simp only [hashtable_model_step, hentries, List.head?_nil]
    exact ⟨hh, hc, hwf, hpos, hnd, hfind, hmlen, hone⟩
  | some i =>
    obtain ⟨_, hilt, hbne, hemp⟩ := hashtable_first_nonempty_spec_some t 0 i hscan
    cases hb : hashtable_bucket t i with
    | nil => exact absurd hb hbne
    | cons cur rest =>
      have hentries : hashtable_entries t = cur :: (rest ++ (t.items.drop (i + 1)).flatten) := by
        rw [hashtable_entries_of_scan_some t hwf.1 hscan, hb, List.cons_append]
      rw [hashtable_pop_found t hscan hb]
      simp only [hashtable_model_step, hentries, List.head?_cons]
      have hcurmem : cur ∈ hashtable_bucket t i := by rw [hb]; simp
      have hicur : hashtable_index t cur.key = i := hwf.2.1 i cur hcurmem
      have hf : hashtable_find t cur.key = some cur.data := by
        rw [hashtable_find_def, hicur, hb]
        show (if t.compfunc cur.key cur.key = 0 then some cur.data else _) = _
        rw [if_pos (by rw [hc]; exact hrefl cur.key)]
      have hfm : chain_find c cur.key m = some cur.data := by
        rw [← hfind cur.key]
        exact hf
      have hm1 : 1 ≤ m.length := by
        cases m with
        | nil => simp [chain_find] at hfm
        | cons a l => simp
      have hsize2 : 2 ≤ t.size := by
        rcases Nat.eq_or_lt_of_le hpos with h1 | h1
        · exfalso
          rw [hone h1.symm] at hfm
          simp [chain_find] at hfm
        · omega
      have hilt2 : i < t.items.length := by
        rw [hwf.1]
        exact hilt
      have hndbucket := hwf.2.2 i
      rw [hb] at hndbucket
      rcases List.pairwise_cons.1 hndbucket with ⟨hcur, hndrest⟩
      have hsub : ∀ e ∈ rest, e ∈ hashtable_bucket t i := by
        intro e he
        rw [hb]
        simp [he]
      have hwf1 : hashtable_wf ({ t with
          items := t.items.set i rest, count := t.count - 1 } : hashtable_t κ ν) :=
        hashtable_set_bucket_wf t i rest (t.count - 1) hilt2 hsub hndrest hwf
      have hfind1 : ∀ k, hashtable_find ({ t with
          items := t.items.set i rest, count := t.count - 1 } : hashtable_t κ ν) k =
          if c cur.key k = 0 then none else hashtable_find t k := by
        intro k
        rw [hashtable_set_bucket_find t i rest (t.count - 1) hilt2 k]
        by_cases hsame : hashtable_index t k = i
        · rw [if_pos hsame]
          by_cases hkk : c cur.key k = 0
          · rw [if_pos hkk]
            apply chain_find_eq_none_iff.2
            intro e he hek
            rw [hc] at hek
            have h1 : c cur.key e.key = 0 := htr _ _ _ hkk (hsym _ _ hek)
            exact hcur e he (by rw [hc]; exact h1)
          · rw [if_neg hkk, hashtable_find_def, hsame, hb]
            show _ = if t.compfunc cur.key k = 0 then some cur.data else _
            rw [if_neg (by rw [hc]; exact hkk)]
        · rw [if_neg hsame]
          have hkk : c cur.key k ≠ 0 := by
            intro hkk
            apply hsame
            have hkey : h cur.key = h k := hhash _ _ hkk
            rw [← hicur]
            show t.hashfunc k &&& (t.size - 1) = t.hashfunc cur.key &&& (t.size - 1)
            rw [hh, ← hkey]
          rw [if_neg hkk]
      have hmodelfind : ∀ k, chain_find c k (chain_remove c cur.key m).2 =
          if c cur.key k = 0 then none else chain_find c k m :=
        fun k => chain_remove_find hsym htr hnd
      have hmodelnd : chain_nodup c (chain_remove c cur.key m).2 := chain_remove_nodup hnd
      have hmodellen : (chain_remove c cur.key m).2.length + 1 = m.length :=
        chain_remove_length (by rw [hfm]; simp)
      by_cases hcond : hashtable_pop_shrink_cond (t.count - 1) t.size = true
      · rw [if_pos hcond]
        have harith := (hashtable_pop_shrink_cond_iff (t.count - 1) t.size).1 hcond
        obtain ⟨hc2, hh2, hsize2', hcount2, hwf2, hfind2⟩ :=
          hashtable_resize_correct h c hsym htr hhash
            ({ t with items := t.items.set i rest, count := t.count - 1 } :
              hashtable_t κ ν) (-1) hc hh hwf1
            (by show 1 ≤ t.size; omega) (Or.inr rfl)
            (by norm_num; show 1 ≤ t.size / 2; omega)
        norm_num at hsize2'
        refine ⟨hh2, hc2, hwf2, ?_, hmodelnd, ?_, ?_, ?_⟩
        · rw [hsize2']
          show 1 ≤ t.size / 2
          omega
        · intro k
          rw [hfind2 k, hfind1 k, hmodelfind k]
          by_cases hkk : c cur.key k = 0
          · rw [if_pos hkk, if_pos hkk]
          · rw [if_neg hkk, if_neg hkk, hfind k]
        · rw [hcount2]
          show _ ≤ t.count - 1
          omega
        · intro hs
          rw [hsize2'] at hs
          have hsize3 : t.size ≤ 3 := by omega
          have hcz : t.count - 1 = 0 := by nlinarith [harith]
          have hlenz : (chain_remove c cur.key m).2.length = 0 := by omega
          exact List.length_eq_zero.1 hlenz
      · rw [if_neg hcond]
        refine ⟨hh, hc, hwf1, ?_, hmodelnd, ?_, ?_, ?_⟩
        · show 1 ≤ t.size
          omega
        · intro k
          rw [hfind1 k, hmodelfind k]
          by_cases hkk : c cur.key k = 0
          · rw [if_pos hkk, if_pos hkk]
          · rw [if_neg hkk, if_neg hkk, hfind k]
        · show _ ≤ t.count - 1
          omega
        · intro hs
          have hs' : t.size = 1 := hs
          omega

theorem hashtable_inv_run (h : κ → Nat) (c : κ → κ → Int)
    (hrefl : ∀ a, c a a = 0)
    (hsym : ∀ a b, c a b = 0 → c b a = 0)
    (htr : ∀ a b d, c a b = 0 → c b d = 0 → c a d = 0)
    (hhash : ∀ a b, c a b = 0 → h a = h b) :
    ∀ (ops : List (hashtable_op κ ν)) (t : hashtable_t κ ν)
      (m : List (hashtable_item κ ν)), hashtable_inv h c t m →
      hashtable_inv h c (hashtable_run_both c (t, m) ops).1
        (hashtable_run_both c (t, m) ops).2 := by
  intro ops
  induction ops with
  | nil =>
    intro t m hinv
    exact hinv
  | cons op rest ih =>
    intro t m hinv
    show hashtable_inv h c
      (hashtable_run_both c (hashtable_step t op, hashtable_model_step c t m op) rest).1
      (hashtable_run_both c (hashtable_step t op, hashtable_model_step c t m op) rest).2
    apply ih
    cases op with
    | ins key data => exact hashtable_inv_insert h c hsym htr hhash t m hinv key data
    | rem key => exact hashtable_inv_remove h c hsym htr hhash t m hinv key
    | pop => exact hashtable_inv_pop h c hrefl hsym htr hhash t m hinv

theorem hashtable_run_both_fst (c : κ → κ → Int) :
    ∀ (ops : List (hashtable_op κ ν)) (t : hashtable_t κ ν)
      (m : List (hashtable_item κ ν)),
      (hashtable_run_both c (t, m) ops).1 = hashtable_run t ops := by
  intro ops
  induction ops with
  | nil =>
    intro t m
    rfl
  | cons op rest ih =>
    intro t m
    show (hashtable_run_both c (hashtable_step t op, hashtable_model_step c t m op) rest).1 = _
    rw [ih]
    rfl

/-- C1: for every sequence of hashtable operations (insert, remove, pop, with
any resizes they trigger) over a fixed hash function and equality function
consistent with each other (equality is reflexive, symmetric, transitive, and
equal keys hash alike), `hashtable_find key` on the resulting table returns the
value most recently inserted for a key equal to `key` and not since removed,
popped, or replaced - and absent for every other key.  The right-hand side is
the flat reference model maintained by `hashtable_model_step`: insert replaces
the value of an equal key (or appends a fresh association), remove deletes an
equal key, pop deletes the entry the concrete pop removed, so `chain_find` on
it is exactly the most-recently-inserted-and-still-live value.  The first
conjunct checks the concrete component of the paired run is the real run. -/
theorem hashtable_find_returns_most_recent (h : κ → Nat) (c : κ → κ → Int)
    (hrefl : ∀ a, c a a = 0)
    (hsym : ∀ a b, c a b = 0 → c b a = 0)
    (htr : ∀ a b d, c a b = 0 → c b d = 0 → c a d = 0)
    (hhash : ∀ a b, c a b = 0 → h a = h b)
    (ops : List (hashtable_op κ ν)) (k : κ) :
    (hashtable_run_both c ((hashtable_create_internal h c : hashtable_t κ ν), []) ops).1 =
        hashtable_run (hashtable_create_internal h c) ops ∧
    hashtable_find
        (hashtable_run_both c ((hashtable_create_internal h c : hashtable_t κ ν), []) ops).1 k =
      chain_find c k
        (hashtable_run_both c ((hashtable_create_internal h c : hashtable_t κ ν), []) ops).2 := by
  have hinv := hashtable_inv_run h c hrefl hsym htr hhash ops
    (hashtable_create_internal h c) [] (hashtable_inv_init h c)
  exact ⟨hashtable_run_both_fst c ops _ _, hinv.2.2.2.2.2.1 k⟩

/-- Witness for C1: a concrete five-operation run (two fresh inserts, one
replacing insert, a remove, and a pop) over `Nat` keys hashed by the identity
and compared by integer difference. -/
theorem hashtable_find_returns_most_recent_witness :
    (hashtable_run_both (fun a b : Nat => (a : Int) - b)
        ((hashtable_create_internal (fun a : Nat => a) (fun a b : Nat => (a : Int) - b) :
          hashtable_t Nat Nat), [])
        [hashtable_op.ins 1 10, hashtable_op.ins 2 20, hashtable_op.ins 1 30,
          hashtable_op.rem 2, hashtable_op.pop]).1 =
        hashtable_run
          (hashtable_create_internal (fun a : Nat => a) (fun a b : Nat => (a : Int) - b))
          [hashtable_op.ins 1 10, hashtable_op.ins 2 20, hashtable_op.ins 1 30,
            hashtable_op.rem 2, hashtable_op.pop] ∧
    hashtable_find
        (hashtable_run_both (fun a b : Nat => (a : Int) - b)
          ((hashtable_create_internal (fun a : Nat => a) (fun a b : Nat => (a : Int) - b) :
            hashtable_t Nat Nat), [])
          [hashtable_op.ins 1 10, hashtable_op.ins 2 20, hashtable_op.ins 1 30,
            hashtable_op.rem 2, hashtable_op.pop]).1 1 =
      chain_find (fun a b : Nat => (a : Int) - b) 1
        (hashtable_run_both (fun a b : Nat => (a : Int) - b)
          ((hashtable_create_internal (fun a : Nat => a) (fun a b : Nat => (a : Int) - b) :
            hashtable_t Nat Nat), [])
          [hashtable_op.ins 1 10, hashtable_op.ins 2 20, hashtable_op.ins 1 30,
            hashtable_op.rem 2, hashtable_op.pop]).2 :=
  hashtable_find_returns_most_recent (fun a : Nat => a) (fun a b : Nat => (a : Int) - b)
    (fun a => by show (a : Int) - a = 0; omega)
    (fun a b hab => by
      have hab2 : (a : Int) - b = 0 := hab
      show (b : Int) - a = 0
      omega)
    (fun a b d hab hbd => by
      have hab2 : (a : Int) - b = 0 := hab
      have hbd2 : (b : Int) - d = 0 := hbd
      show (a : Int) - d = 0
      omega)
    (fun a b hab => by
      have hab2 : (a : Int) - b = 0 := hab
      show a = b
      omega)
    [hashtable_op.ins 1 10, hashtable_op.ins 2 20, hashtable_op.ins 1 30,
      hashtable_op.rem 2, hashtable_op.pop] 1

/-! ### Iterator correctness -/

/-- What a cursor still has to yield: the rest of the current chain, then all
buckets after the current index. -/
def hashtable_iter_remaining (it : hashtable_iterator κ ν) :
    List (hashtable_item κ ν) :=
  it.item ++ (it.table.items.drop (it.index + 1)).flatten

/-- Cursor sanity: the bucket array has `size` slots, a terminal cursor has
run its index past the table, and a live cursor's index is in range. -/
def hashtable_iter_valid (it : hashtable_iterator κ ν) : Prop :=
  it.table.items.length = it.table.size ∧
  (it.item = [] → it.table.size ≤ it.index) ∧
  (it.item ≠ [] → it.index < it.table.size)

theorem hashtable_iterator_drain_spec :
    ∀ (fuel : Nat) (it : hashtable_iterator κ ν), hashtable_iter_valid it →
      (hashtable_iter_remaining it).length ≤ fuel →
      hashtable_iterator_drain it fuel =
        (hashtable_iter_remaining it).map (fun e => e.data) := by
  intro fuel
  induction fuel with
  | zero =>
    intro it hvalid hlen
    have hnil : hashtable_iter_remaining it = [] :=
      List.length_eq_zero.1 (by omega)
    rw [hnil]
    rfl
  | succ fuel ih =>
    intro it hvalid hlen
    obtain ⟨htlen, hterm, hlive⟩ := hvalid
    cases hitem : it.item with
    | nil =>
      have hdrop : it.table.items.drop (it.index + 1) = [] := by
        apply List.drop_eq_nil_of_le
        rw [htlen]
        have := hterm hitem
        omega
      have hrem : hashtable_iter_remaining it = [] := by
        unfold hashtable_iter_remaining
        rw [hitem, hdrop]
        rfl
      rw [hrem]
      simp only [hashtable_iterator_drain, hashtable_iterator_next, hitem]
      rfl
    | cons cur rest =>
      have hidx : it.index < it.table.size := hlive (by rw [hitem]; simp)
      cases rest with
      | cons r2 rs =>
        have hrem : hashtable_iter_remaining it =
            cur :: hashtable_iter_remaining { it with item := r2 :: rs } := by
          unfold hashtable_iter_remaining
          rw [hitem]
          rfl
        simp only [hashtable_iterator_drain, hashtable_iterator_next, hitem]
        rw [if_pos (by simp)]
        show cur.data :: hashtable_iterator_drain { it with item := r2 :: rs } fuel = _
        rw [ih { it with item := r2 :: rs }
          ⟨htlen, by intro hx; simp at hx, fun _ => hidx⟩
          (by rw [hrem] at hlen; simp at hlen ⊢; omega)]
        rw [hrem]
        rfl
      | nil =>
        cases hscan : hashtable_first_nonempty it.table (it.index + 1) with
        | some j =>
          obtain ⟨hj1, hj2, hjne, hjemp⟩ :=
            hashtable_first_nonempty_spec_some it.table (it.index + 1) j hscan
          have hdropflat : (it.table.items.drop (it.index + 1)).flatten =
              hashtable_bucket it.table j ++ (it.table.items.drop (j + 1)).flatten := by
            rw [list_flatten_drop_of_empty it.table.items (it.index + 1) j hj1
                (by omega) (fun l hl1 hl2 => hjemp l hl1 hl2),
              list_flatten_drop_cons it.table.items j (by omega)]
            rfl
          have hrem : hashtable_iter_remaining it =
              cur :: hashtable_iter_remaining
                { it with item := hashtable_bucket it.table j, index := j } := by
            unfold hashtable_iter_remaining
            rw [hitem, hdropflat]
            rfl
          simp only [hashtable_iterator_drain, hashtable_iterator_next, hitem]
          rw [if_neg (by simp), hscan]
          show cur.data :: hashtable_iterator_drain
            { it with item := hashtable_bucket it.table j, index := j } fuel = _
          rw [ih { it with item := hashtable_bucket it.table j, index := j }
            ⟨htlen, fun hx => absurd hx hjne, fun _ => hj2⟩
            (by rw [hrem] at hlen; simp at hlen ⊢; omega)]
          rw [hrem]
          rfl
        | none =>
          have hjemp := hashtable_first_nonempty_spec_none it.table (it.index + 1) hscan
          have hdropflat : (it.table.items.drop (it.index + 1)).flatten = [] := by
            rw [list_flatten_drop_of_empty it.table.items (it.index + 1) it.table.size
                (by omega) (by omega) (fun l hl1 hl2 => hjemp l hl1 hl2),
              ← htlen, List.drop_length]
            rfl
          have hrem : hashtable_iter_remaining it = [cur] := by
            unfold hashtable_iter_remaining
            rw [hitem, hdropflat]
            rfl
          simp only [hashtable_iterator_drain, hashtable_iterator_next, hitem]
          rw [if_neg (by simp), hscan]
          show cur.data :: hashtable_iterator_drain
            { it with item := [], index := it.table.size } fuel = _
          rw [ih { it with item := [], index := it.table.size }
            ⟨htlen, fun _ => le_rfl, fun hx => absurd rfl hx⟩ ?_]
          · rw [hrem]
            have hrem2 : hashtable_iter_remaining
                ({ it with item := [], index := it.table.size } : hashtable_iterator κ ν)
                = [] := by
              unfold hashtable_iter_remaining
              have hdrop2 : it.table.items.drop (it.table.size + 1) = [] := by
                apply List.drop_eq_nil_of_le
                omega
              rw [hdrop2]
              rfl
            rw [hrem2]
            rfl
          · have hrem2 : hashtable_iter_remaining
                ({ it with item := [], index := it.table.size } : hashtable_iterator κ ν)
                = [] := by
              unfold hashtable_iter_remaining
              have hdrop2 : it.table.items.drop (it.table.size + 1) = [] := by
                apply List.drop_eq_nil_of_le
                omega
              rw [hdrop2]
              rfl
            rw [hrem2]
            simp

theorem hashtable_iterator_begin_spec (t : hashtable_t κ ν)
    (hlen : t.items.length = t.size) :
    hashtable_iter_valid (hashtable_iterator_begin t) ∧
    hashtable_iter_remaining (hashtable_iterator_begin t) = hashtable_entries t := by
  cases hscan : hashtable_first_nonempty t 0 with
  | some i =>
    obtain ⟨_, hi, hne, hemp⟩ := hashtable_first_nonempty_spec_some t 0 i hscan
    simp only [hashtable_iterator_begin, hscan]
    refine ⟨⟨hlen, fun hx => absurd hx hne, fun _ => hi⟩, ?_⟩
    unfold hashtable_iter_remaining
    rw [hashtable_entries_of_scan_some t hlen hscan]
  | none =>
    simp only [hashtable_iterator_begin, hscan]
    refine ⟨⟨hlen, fun _ => le_rfl, fun hx => absurd rfl hx⟩, ?_⟩
    unfold hashtable_iter_remaining
    rw [hashtable_entries_of_scan_none t hlen hscan]
    have hdrop : t.items.drop (t.size + 1) = [] := by
      apply List.drop_eq_nil_of_le
      omega
    rw [hdrop]
    rfl

/-- C3 (amended): over an unmutated table reached by any prior sequence of
insert/remove/pop operations, a full iteration (begin, then next until it
returns nothing; any fuel at least the number of live entries suffices) yields
exactly the live entries in bucket order - one value per distinct live key, no
omissions and no duplicates (the keys of the yielded entries are pairwise
unequal under the table's equality function).  The number yielded is the
number of live entries; it equals the stored `count` field only in runs where
no insert replaced an existing key, since `hashtable_insert` also increments
`count` on replacement. -/
theorem hashtable_iteration_yields_live_entries (h : κ → Nat) (c : κ → κ → Int)
    (hrefl : ∀ a, c a a = 0)
    (hsym : ∀ a b, c a b = 0 → c b a = 0)
    (htr : ∀ a b d, c a b = 0 → c b d = 0 → c a d = 0)
    (hhash : ∀ a b, c a b = 0 → h a = h b)
    (ops : List (hashtable_op κ ν)) (fuel : Nat)
    (hfuel : (hashtable_entries
      (hashtable_run (hashtable_create_internal h c) ops)).length ≤ fuel) :
    hashtable_iterator_drain
        (hashtable_iterator_begin
          (hashtable_run (hashtable_create_internal h c) ops)) fuel =
      (hashtable_entries (hashtable_run (hashtable_create_internal h c) ops)).map
        (fun e => e.data) ∧
    (hashtable_entries (hashtable_run (hashtable_create_internal h c) ops)).Pairwise
      (fun a b => c a.key b.key ≠ 0) := by
  have hinv := hashtable_inv_run h c hrefl hsym htr hhash ops
    (hashtable_create_internal h c) [] (hashtable_inv_init h c)
  rw [hashtable_run_both_fst c ops _ _] at hinv
  obtain ⟨hh, hc, hwf, _, _, _, _, _⟩ := hinv
  have hbegin := hashtable_iterator_begin_spec
    (hashtable_run (hashtable_create_internal h c) ops) hwf.1
  constructor
  · rw [hashtable_iterator_drain_spec fuel _ hbegin.1
      (by rw [hbegin.2]; exact hfuel), hbegin.2]
  · have hpw := hashtable_wf_entries_pairwise _ (by rw [hc, hh]; exact hhash) hwf
    unfold chain_nodup at hpw
    rwa [hc] at hpw

/-- Witness for C3's amended theorem: a concrete run with two fresh inserts,
one replacing insert, and a remove, drained with fuel 8. -/
theorem hashtable_iteration_yields_live_entries_witness :
    hashtable_iterator_drain
        (hashtable_iterator_begin
          (hashtable_run
            (hashtable_create_internal (fun a : Nat => a) (fun a b : Nat => (a : Int) - b))
            [hashtable_op.ins 1 10, hashtable_op.ins 2 20, hashtable_op.ins 1 30,
              hashtable_op.rem 2])) 8 =
      (hashtable_entries
        (hashtable_run
          (hashtable_create_internal (fun a : Nat => a) (fun a b : Nat => (a : Int) - b))
          [hashtable_op.ins 1 10, hashtable_op.ins 2 20, hashtable_op.ins 1 30,
            hashtable_op.rem 2])).map (fun e => e.data) ∧
    (hashtable_entries
      (hashtable_run
        (hashtable_create_internal (fun a : Nat => a) (fun a b : Nat => (a : Int) - b))
        [hashtable_op.ins 1 10, hashtable_op.ins 2 20, hashtable_op.ins 1 30,
          hashtable_op.rem 2])).Pairwise
      (fun a b => (fun x y : Nat => (x : Int) - y) a.key b.key ≠ 0) :=
  hashtable_iteration_yields_live_entries (fun a : Nat => a)
    (fun a b : Nat => (a : Int) - b)
    (fun a => by show (a : Int) - a = 0; omega)
    (fun a b hab => by
      have hab2 : (a : Int) - b = 0 := hab
      show (b : Int) - a = 0
      omega)
    (fun a b d hab hbd => by
      have hab2 : (a : Int) - b = 0 := hab
      have hbd2 : (b : Int) - d = 0 := hbd
      show (a : Int) - d = 0
      omega)
    (fun a b hab => by
      have hab2 : (a : Int) - b = 0 := hab
      show a = b
      omega)
    [hashtable_op.ins 1 10, hashtable_op.ins 2 20, hashtable_op.ins 1 30,
      hashtable_op.rem 2] 8 (by decide)

/-- C3 counterexample: the claim as stated ("a full iteration yields exactly
`count` values") is false.  After inserting the same key twice into a fresh
table, the full iteration yields 1 value while `count` is 2, because
`hashtable_insert` increments `count` even when it replaces an entry. -/
theorem hashtable_iteration_count_counterexample :
    (hashtable_iterator_drain
      (hashtable_iterator_begin
        ((hashtable_insert
          ((hashtable_insert
            (hashtable_create_internal (fun a : Nat => a)
              (fun a b : Nat => (a : Int) - b) : hashtable_t Nat Nat) 1 10).2)
          1 20).2)) 8).length = 1 ∧
    hashtable_get_count
      ((hashtable_insert
        ((hashtable_insert
          (hashtable_create_internal (fun a : Nat => a)
            (fun a b : Nat => (a : Int) - b) : hashtable_t Nat Nat) 1 10).2)
        1 20).2) = 2 := by decide

/-- C2: the claim says a replacing insert leaves `count` unchanged, and the
code's own documentation of `hashtable_get_count` ("returns how many items are
in the hashtable") agrees; but `hashtable_insert` pre-increments `count`
before the duplicate check, so the second insert of key 1 returns the prior
value 10, leaves a single live entry, and still pushes `count` to 2.  This
theorem evaluates the code at the failing input. -/
theorem hashtable_insert_duplicate_count_bug :
    (hashtable_insert
      ((hashtable_insert
        (hashtable_create_internal (fun a : Nat => a)
          (fun a b : Nat => (a : Int) - b) : hashtable_t Nat Nat) 1 10).2)
      1 20).1 = some 10 ∧
    hashtable_get_count
      ((hashtable_insert
        ((hashtable_insert
          (hashtable_create_internal (fun a : Nat => a)
            (fun a b : Nat => (a : Int) - b) : hashtable_t Nat Nat) 1 10).2)
        1 20).2) = 2 ∧
    (hashtable_entries
      ((hashtable_insert
        ((hashtable_insert
          (hashtable_create_internal (fun a : Nat => a)
            (fun a b : Nat => (a : Int) - b) : hashtable_t Nat Nat) 1 10).2)
        1 20).2)).length = 1 ∧
    hashtable_find
      ((hashtable_insert
        ((hashtable_insert
          (hashtable_create_internal (fun a : Nat => a)
            (fun a b : Nat => (a : Int) - b) : hashtable_t Nat Nat) 1 10).2)
        1 20).2) 1 = some 20 := by decide

/-! ### Shrink behaviour (claims C4 and C5) -/

theorem hashtable_resize_down_size (t : hashtable_t κ ν) :
    (hashtable_resize t (-1)).size = t.size / 2 := by
  unfold hashtable_resize
  rw [if_pos (Or.inr rfl)]
  rw [(hashtable_fold_insert_fields t.items.flatten _).2.2.1]
  norm_num

/-- C4 (amended): there is no minimum-size floor in the code.  A remove or pop
either leaves `size` unchanged or - whenever its shrink condition fires -
halves it unconditionally, so `size` can drop below the default initial bucket
count (the counterexample reaches 8 from the default 16 with one insert and
one remove). -/
theorem hashtable_shrink_halves_unconditionally (t : hashtable_t κ ν) (key : κ) :
    ((hashtable_remove t key).2.size = t.size ∨
      (hashtable_remove t key).2.size = t.size / 2) ∧
    ((hashtable_pop t).2.size = t.size ∨ (hashtable_pop t).2.size = t.size / 2) := by
  constructor
  · cases hfr : hashtable_find t key with
    | none =>
      rw [hashtable_remove_not_found t key hfr]
      exact Or.inl rfl
    | some data =>
      rw [hashtable_remove_found t key hfr]
      by_cases hcond : hashtable_remove_shrink_cond (t.count - 1) t.size = true
      · rw [if_pos hcond]
        right
        show (hashtable_resize _ (-1)).size = t.size / 2
        rw [hashtable_resize_down_size]
      · rw [if_neg hcond]
        left
        rfl
  · cases hscan : hashtable_first_nonempty t 0 with
    | none =>
      rw [hashtable_pop_empty t hscan]
      exact Or.inl rfl
    | some i =>
      cases hb : hashtable_bucket t i with
      | nil =>
        have hp : hashtable_pop t = (none, t) := by
          simp only [hashtable_pop, hscan, hb]
        rw [hp]
        exact Or.inl rfl
      | cons cur rest =>
        rw [hashtable_pop_found t hscan hb]
        by_cases hcond : hashtable_pop_shrink_cond (t.count - 1) t.size = true
        · rw [if_pos hcond]
          right
          show (hashtable_resize _ (-1)).size = t.size / 2
          rw [hashtable_resize_down_size]
        · rw [if_neg hcond]
          left
          rfl

/-- C4 counterexample: from a freshly created table (default size 16, default
tolerance 70), inserting one key and removing it fires the shrink check
(`0 * 100 < 16 * 30`) and halves `size` to 8, strictly below the configured
default minimum - the claim that `size` never shrinks below the default
initial bucket count is false. -/
theorem hashtable_size_below_default_counterexample :
    ((hashtable_remove
      ((hashtable_insert
        (hashtable_create_internal (fun a : Nat => a)
          (fun a b : Nat => (a : Int) - b) : hashtable_t Nat Nat) 0 10).2) 0).2.size = 8) ∧
    ((hashtable_remove
      ((hashtable_insert
        (hashtable_create_internal (fun a : Nat => a)
          (fun a b : Nat => (a : Int) - b) : hashtable_t Nat Nat) 0 10).2) 0).2.size
      < HASHTABLE_DEFAULT_SIZE) := by decide

/-- C5 counterexample: `hashtable_pop` checks its shrink with `<=` where
`hashtable_remove` checks with `<` (lines 344 and 321), so the two do not
evaluate the same predicate: at decremented count 3 and size 10 the pop
condition fires while the remove condition does not. -/
theorem hashtable_shrink_conds_differ_counterexample :
    hashtable_pop_shrink_cond 3 10 = true ∧
    hashtable_remove_shrink_cond 3 10 = false := by decide

/-- C5 (amended): the two shrink conditions differ textually (`<=` in pop,
`<` in remove), but they agree on every power-of-two size - and any table the
API can build has a power-of-two size - because with the default tolerance 70
the boundary case `count * 100 = size * 30` has no solution with `size` a
power of two.  Hence pop triggers a halving resize on a reachable table state
exactly when remove would. -/
theorem hashtable_shrink_conds_agree_on_pow2 (count n : Nat) :
    hashtable_pop_shrink_cond count (2 ^ n) =
      hashtable_remove_shrink_cond count (2 ^ n) := by
  have h5 : ¬ (5 : Nat) ∣ 2 ^ n := by
    intro hdvd
    have h52 := Nat.Prime.dvd_of_dvd_pow (by norm_num) hdvd
    omega
  have hne : count * 100 ≠ 2 ^ n * (100 - HASHTABLE_SIZE_TOLERANCE) := by
    intro heq
    apply h5
    simp only [HASHTABLE_SIZE_TOLERANCE] at heq
    have hdvd : (5 : Nat) ∣ 3 * 2 ^ n := ⟨2 * count, by omega⟩
    exact Nat.Coprime.dvd_of_dvd_mul_left (by norm_num) hdvd
  simp only [hashtable_pop_shrink_cond, hashtable_remove_shrink_cond]
  rw [decide_eq_decide]
  simp only [HASHTABLE_SIZE_TOLERANCE] at hne ⊢
  omega

/-! ### Repeated insertion of a single key (claim C10) -/

theorem hashtable_resize_up_eq (t : hashtable_t κ ν) :
    hashtable_resize t 1 = (t.items.flatten).foldl
      (fun acc it => (hashtable_insert_internal acc it).2)
      { t with size := t.size * 2, items := List.replicate (t.size * 2) [] } := by
  simp [hashtable_resize]

theorem hashtable_insert_internal_empty (t : hashtable_t κ ν)
    (item : hashtable_item κ ν) (hempty : t.items = List.replicate t.size []) :
    (hashtable_insert_internal t item).2 =
      { t with items := ((List.replicate t.size []).set
          (hashtable_index t item.key) [item]) } := by
  simp only [hashtable_insert_internal, hashtable_bucket]
  rw [hempty, list_getD_replicate_nil]
  rfl

theorem hashtable_insert_internal_shape (t : hashtable_t κ ν) (key : κ)
    (data data2 : ν) (hkk : t.compfunc key key = 0) (hpos : 1 ≤ t.size)
    (hshape : t.items = (List.replicate t.size []).set
      (hashtable_index t key) [⟨key, data⟩]) :
    (hashtable_insert_internal t ⟨key, data2⟩).2 =
      { t with items := ((List.replicate t.size []).set
          (hashtable_index t key) [⟨key, data2⟩]) } := by
  have hidx : hashtable_index t key < t.size := hashtable_index_lt t key hpos
  simp only [hashtable_insert_internal, hashtable_bucket]
  rw [hshape]
  rw [show hashtable_index t (⟨key, data2⟩ : hashtable_item κ ν).key
    = hashtable_index t key from rfl]
  rw [list_getD_set_self _ _ _ _
    (by rw [List.length_replicate]; exact hidx)]
  rw [show chain_insert t.compfunc (⟨key, data2⟩ : hashtable_item κ ν)
      [(⟨key, data⟩ : hashtable_item κ ν)]
      = (some data, [⟨key, data2⟩]) from by simp [chain_insert, hkk]]
  rw [List.set_set]

theorem hashtable_same_key_insert_step (h : κ → Nat) (c : κ → κ → Int)
    (key : κ) (data : ν) (hkk : c key key = 0)
    (t : hashtable_t κ ν) (hh : t.hashfunc = h) (hc : t.compfunc = c)
    (hsize : 2 ≤ t.size) (hload : t.count * 100 < t.size * 70)
    (hshape : t.items = (List.replicate t.size []).set
      (hashtable_index t key) [⟨key, data⟩]) :
    (hashtable_insert t key data).2.hashfunc = h ∧
    (hashtable_insert t key data).2.compfunc = c ∧
    (hashtable_insert t key data).2.count = t.count + 1 ∧
    2 ≤ (hashtable_insert t key data).2.size ∧
    (hashtable_insert t key data).2.count * 100 <
      (hashtable_insert t key data).2.size * 70 ∧
    (hashtable_insert t key data).2.items =
      (List.replicate (hashtable_insert t key data).2.size []).set
        (hashtable_index (hashtable_insert t key data).2 key) [⟨key, data⟩] := by
  have hidx : hashtable_index t key < t.size := hashtable_index_lt t key (by omega)
  have hshape1 : ({ t with count := t.count + 1 } : hashtable_t κ ν).items =
      (List.replicate t.size []).set (hashtable_index t key) [⟨key, data⟩] := hshape
  rw [hashtable_insert_eq]
  by_cases hgrow : (t.count + 1) * 100 ≥ t.size * HASHTABLE_SIZE_TOLERANCE
  · rw [if_pos hgrow]
    have hres : hashtable_resize ({ t with count := t.count + 1 } : hashtable_t κ ν) 1 =
        { t with
          count := t.count + 1
          size := t.size * 2
          items := ((List.replicate (t.size * 2) []).set
            (t.hashfunc key &&& (t.size * 2 - 1)) [⟨key, data⟩]) } := by
      rw [hashtable_resize_up_eq, hshape1,
        list_flatten_replicate_set t.size (hashtable_index t key) _ hidx,
        List.foldl_cons, List.foldl_nil,
        hashtable_insert_internal_empty _ _ rfl]
      rfl
    rw [hres]
    rw [hashtable_insert_internal_shape _ key data data
      (by show t.compfunc key key = 0; rw [hc]; exact hkk)
      (by show 1 ≤ t.size * 2; omega)
      rfl]
    refine ⟨hh, hc, rfl, ?_, ?_, rfl⟩
    · show 2 ≤ t.size * 2
      omega
    · show (t.count + 1) * 100 < t.size * 2 * 70
      omega
  · rw [if_neg hgrow]
    simp only [HASHTABLE_SIZE_TOLERANCE] at hgrow
    rw [hashtable_insert_internal_shape _ key data data
      (by show t.compfunc key key = 0; rw [hc]; exact hkk)
      (by show 1 ≤ t.size; omega)
      hshape1]
    refine ⟨hh, hc, rfl, ?_, ?_, rfl⟩
    · show 2 ≤ t.size
      omega
    · show (t.count + 1) * 100 < t.size * 70
      omega

theorem hashtable_run_cons (t : hashtable_t κ ν) (op : hashtable_op κ ν)
    (ops : List (hashtable_op κ ν)) :
    hashtable_run t (op :: ops) = hashtable_run (hashtable_step t op) ops := rfl

theorem hashtable_same_key_run (h : κ → Nat) (c : κ → κ → Int)
    (key : κ) (data : ν) (hkk : c key key = 0) :
    ∀ (n : Nat) (t : hashtable_t κ ν),
      t.hashfunc = h → t.compfunc = c → 2 ≤ t.size →
      t.count * 100 < t.size * 70 →
      t.items = (List.replicate t.size []).set (hashtable_index t key) [⟨key, data⟩] →
      (hashtable_run t (List.replicate n (hashtable_op.ins key data))).count
          = t.count + n ∧
      2 ≤ (hashtable_run t (List.replicate n (hashtable_op.ins key data))).size ∧
      (hashtable_run t (List.replicate n (hashtable_op.ins key data))).count * 100
        < (hashtable_run t (List.replicate n (hashtable_op.ins key data))).size * 70 ∧
      (hashtable_run t (List.replicate n (hashtable_op.ins key data))).items =
        (List.replicate
          (hashtable_run t (List.replicate n (hashtable_op.ins key data))).size []).set
          (hashtable_index
            (hashtable_run t (List.replicate n (hashtable_op.ins key data))) key)
          [⟨key, data⟩] := by
  intro n
  induction n with
  | zero =>
    intro t hh hc hs hl hsh
    exact ⟨rfl, hs, hl, hsh⟩
  | succ n ih =>
    intro t hh hc hs hl hsh
    rw [List.replicate_succ, hashtable_run_cons]
    obtain ⟨h1, h2, h3, h4, h5, h6⟩ :=
      hashtable_same_key_insert_step h c key data hkk t hh hc hs hl hsh
    have hrec := ih (hashtable_step t (hashtable_op.ins key data)) h1 h2 h4 h5 h6
    refine ⟨?_, hrec.2.1, hrec.2.2.1, hrec.2.2.2⟩
    rw [hrec.1]
    have h3' : (hashtable_step t (hashtable_op.ins key data)).count = t.count + 1 := h3
    omega

theorem hashtable_same_key_base (h : κ → Nat) (c : κ → κ → Int)
    (key : κ) (data : ν) :
    (hashtable_insert (hashtable_create_internal h c : hashtable_t κ ν) key data).2 =
      { hashfunc := h
        compfunc := c
        size := HASHTABLE_DEFAULT_SIZE
        count := 1
        items := ((List.replicate HASHTABLE_DEFAULT_SIZE []).set
          (h key &&& (HASHTABLE_DEFAULT_SIZE - 1)) [⟨key, data⟩]) } := by
  rw [hashtable_insert_eq]
  rw [if_neg (by
    show ¬(0 + 1) * 100 ≥ HASHTABLE_DEFAULT_SIZE * HASHTABLE_SIZE_TOLERANCE
    decide)]
  rw [hashtable_insert_internal_empty _ _ rfl]
  rfl

/-- C10: `hashtable_insert` pre-increments `count` before the duplicate check,
and the growth check runs on the incremented value, so an insert that merely
replaces an existing key's value still counts towards growth: repeatedly
inserting one single key keeps exactly one live entry, drives `count` to `n`,
and keeps doubling `size`, which therefore grows without bound
(`100 * n < 70 * size`, so `size > 10 * n / 7`). -/
theorem hashtable_repeated_insert_grows_without_bound (h : κ → Nat)
    (c : κ → κ → Int) (key : κ) (data : ν) (hkk : c key key = 0)
    (n : Nat) (hn : 1 ≤ n) :
    (hashtable_run (hashtable_create_internal h c : hashtable_t κ ν)
        (List.replicate n (hashtable_op.ins key data))).count = n ∧
    hashtable_entries (hashtable_run (hashtable_create_internal h c : hashtable_t κ ν)
        (List.replicate n (hashtable_op.ins key data))) = [⟨key, data⟩] ∧
    100 * n < 70 * (hashtable_run (hashtable_create_internal h c : hashtable_t κ ν)
        (List.replicate n (hashtable_op.ins key data))).size := by
  obtain ⟨m, rfl⟩ : ∃ m, n = m + 1 := ⟨n - 1, by omega⟩
  rw [List.replicate_succ, hashtable_run_cons]
  have hstep_eq : hashtable_step (hashtable_create_internal h c : hashtable_t κ ν)
      (hashtable_op.ins key data) =
      { hashfunc := h
        compfunc := c
        size := HASHTABLE_DEFAULT_SIZE
        count := 1
        items := ((List.replicate HASHTABLE_DEFAULT_SIZE []).set
          (h key &&& (HASHTABLE_DEFAULT_SIZE - 1)) [⟨key, data⟩]) } :=
    hashtable_same_key_base h c key data
  rw [hstep_eq]
  have hrun := hashtable_same_key_run h c key data hkk m
    ({ hashfunc := h
       compfunc := c
       size := HASHTABLE_DEFAULT_SIZE
       count := 1
       items := ((List.replicate HASHTABLE_DEFAULT_SIZE []).set
         (h key &&& (HASHTABLE_DEFAULT_SIZE - 1)) [⟨key, data⟩]) } : hashtable_t κ ν)
    rfl rfl (by show 2 ≤ HASHTABLE_DEFAULT_SIZE; decide)
    (by show 1 * 100 < HASHTABLE_DEFAULT_SIZE * 70; decide) rfl
  refine ⟨?_, ?_, ?_⟩
  · rw [hrun.1]
    show 1 + m = m + 1
    omega
  · unfold hashtable_entries
    rw [hrun.2.2.2,
      list_flatten_replicate_set _ _ _ (hashtable_index_lt _ key (by omega))]
  · have hload := hrun.2.2.1
    rw [hrun.1] at hload
    have h1 : (1 + m) * 100 < _ * 70 := hload
    omega

/-- Witness for C10 at `n = 12`: after twelve inserts of key 1 into a fresh
table, `count` is 12, the table still holds the single entry, and `size` has
doubled to 32 (the 12th replacing insert fired the growth check,
`12 * 100 >= 16 * 70`). -/
theorem hashtable_repeated_insert_grows_without_bound_witness :
    (hashtable_run
        (hashtable_create_internal (fun a : Nat => a)
          (fun a b : Nat => (a : Int) - b) : hashtable_t Nat Nat)
        (List.replicate 12 (hashtable_op.ins 1 5))).count = 12 ∧
    hashtable_entries
        (hashtable_run
          (hashtable_create_internal (fun a : Nat => a)
            (fun a b : Nat => (a : Int) - b) : hashtable_t Nat Nat)
          (List.replicate 12 (hashtable_op.ins 1 5))) = [⟨1, 5⟩] ∧
    100 * 12 < 70 * (hashtable_run
        (hashtable_create_internal (fun a : Nat => a)
          (fun a b : Nat => (a : Int) - b) : hashtable_t Nat Nat)
        (List.replicate 12 (hashtable_op.ins 1 5))).size :=
  hashtable_repeated_insert_grows_without_bound (fun a : Nat => a)
    (fun a b : Nat => (a : Int) - b) 1 5 (by decide) 12 (by decide)

/-! ### Memory-pool claims -/

/-- C6: the claimed invariant `block_end <= block_size` is broken by the code
whenever `elem_size` is smaller than `sizeof(struct mempool_free)`, because
`MEMPOOL_INIT` clamps `element_size` up to the link size but computes
`block_size` from the raw, unclamped `elem_size` - contradicting the struct's
own documentation that `block_size = element_size * element_count`.  With
`MEMPOOL_INIT(4, 1)` on an LP64 platform, the very first alloc carves 8 bytes
from a 4-byte block: `block_end = 8 > 4 = block_size`.  This theorem evaluates
the code at that failing input. -/
theorem mempool_block_end_exceeds_block_size :
    (mempool_alloc_internal (MEMPOOL_INIT 4 1) true true).2.element_size = 8 ∧
    (mempool_alloc_internal (MEMPOOL_INIT 4 1) true true).2.block_size = 4 ∧
    (mempool_alloc_internal (MEMPOOL_INIT 4 1) true true).2.block_end = 8 ∧
    ¬((mempool_alloc_internal (MEMPOOL_INIT 4 1) true true).2.block_end ≤
      (mempool_alloc_internal (MEMPOOL_INIT 4 1) true true).2.block_size) := by
  decide

/-- C7 counterexample: on a fresh pool where `p` was the only outstanding
allocation, alloc-free-alloc does not reuse the free list and does allocate a
new block: the free resets the pool (`alloc_count` hits 0, so the free list is
cleared and all blocks are released), leaving the second alloc with an empty
free list; it goes through block allocation again, growing `block_count` from
0 back to 1 with a freshly malloc'd block. -/
theorem mempool_alloc_free_alloc_reallocates :
    (mempool_free (mempool_alloc_internal (MEMPOOL_INIT 8 4) true true).2
      ((mempool_alloc_internal (MEMPOOL_INIT 8 4) true true).1.getD (0, 0))).free_elements
      = [] ∧
    (mempool_free (mempool_alloc_internal (MEMPOOL_INIT 8 4) true true).2
      ((mempool_alloc_internal (MEMPOOL_INIT 8 4) true true).1.getD (0, 0))).blocks = [] ∧
    (mempool_free (mempool_alloc_internal (MEMPOOL_INIT 8 4) true true).2
      ((mempool_alloc_internal (MEMPOOL_INIT 8 4) true true).1.getD (0, 0))).block_count
      = 0 ∧
    (mempool_alloc_internal
      (mempool_free (mempool_alloc_internal (MEMPOOL_INIT 8 4) true true).2
        ((mempool_alloc_internal (MEMPOOL_INIT 8 4) true true).1.getD (0, 0)))
      true true).2.block_count = 1 := by
  decide

/-- C7 (amended): free-list reuse holds whenever some other allocation is
still outstanding.  If `alloc_count >= 2` before the free, then freeing `p`
pushes it on the free list (no reset fires), and the next alloc pops and
returns exactly `p` without allocating any new block - `blocks`, `block_count`
and `block_end` are all unchanged.  On a fresh pool where `p` was the only
outstanding allocation the code instead resets the pool and the second alloc
allocates a fresh block (see the counterexample). -/
theorem mempool_free_then_alloc_reuses (pool : mempool_t) (p : mempool_addr)
    (realloc_ok malloc_ok : Bool) (h2 : 2 ≤ pool.alloc_count) :
    (mempool_alloc_internal (mempool_free pool p) realloc_ok malloc_ok).1 = some p ∧
    (mempool_alloc_internal (mempool_free pool p) realloc_ok malloc_ok).2.blocks
      = pool.blocks ∧
    (mempool_alloc_internal (mempool_free pool p) realloc_ok malloc_ok).2.block_count
      = pool.block_count ∧
    (mempool_alloc_internal (mempool_free pool p) realloc_ok malloc_ok).2.block_end
      = pool.block_end := by
  have hne : ¬(pool.alloc_count - 1 = 0) := by omega
  simp [mempool_free, mempool_alloc_internal, hne]

/-- Witness for C7's amended theorem: two allocations from a fresh pool, then
free-and-realloc of the first address. -/
theorem mempool_free_then_alloc_reuses_witness :
    (mempool_alloc_internal
      (mempool_free
        (mempool_alloc_internal
          (mempool_alloc_internal (MEMPOOL_INIT 8 4) true true).2 true true).2 (0, 0))
      true true).1 = some (0, 0) ∧
    (mempool_alloc_internal
      (mempool_free
        (mempool_alloc_internal
          (mempool_alloc_internal (MEMPOOL_INIT 8 4) true true).2 true true).2 (0, 0))
      true true).2.blocks =
      (mempool_alloc_internal
        (mempool_alloc_internal (MEMPOOL_INIT 8 4) true true).2 true true).2.blocks ∧
    (mempool_alloc_internal
      (mempool_free
        (mempool_alloc_internal
          (mempool_alloc_internal (MEMPOOL_INIT 8 4) true true).2 true true).2 (0, 0))
      true true).2.block_count =
      (mempool_alloc_internal
        (mempool_alloc_internal (MEMPOOL_INIT 8 4) true true).2 true true).2.block_count ∧
    (mempool_alloc_internal
      (mempool_free
        (mempool_alloc_internal
          (mempool_alloc_internal (MEMPOOL_INIT 8 4) true true).2 true true).2 (0, 0))
      true true).2.block_end =
      (mempool_alloc_internal
        (mempool_alloc_internal (MEMPOOL_INIT 8 4) true true).2 true true).2.block_end :=
  mempool_free_then_alloc_reuses
    (mempool_alloc_internal
      (mempool_alloc_internal (MEMPOOL_INIT 8 4) true true).2 true true).2
    (0, 0) true true (by decide)

/-- C8: whenever a free brings `alloc_count` to zero, the pool returns to its
pristine just-created state: the block list is freed and nulled, `block_count`
and `block_end` are zero, and the free list is empty (src/mempool.h lines
152-164). -/
theorem mempool_free_last_resets_pool (pool : mempool_t) (element : mempool_addr)
    (h1 : pool.alloc_count = 1) :
    (mempool_free pool element).blocks = [] ∧
    (mempool_free pool element).block_count = 0 ∧
    (mempool_free pool element).block_end = 0 ∧
    (mempool_free pool element).free_elements = [] ∧
    (mempool_free pool element).alloc_count = 0 := by
  simp [mempool_free, h1]

/-- Witness for C8: a fresh pool after one alloc has `alloc_count = 1`;
freeing that element resets every structural field. -/
theorem mempool_free_last_resets_pool_witness :
    (mempool_free (mempool_alloc_internal (MEMPOOL_INIT 8 4) true true).2
      (0, 0)).blocks = [] ∧
    (mempool_free (mempool_alloc_internal (MEMPOOL_INIT 8 4) true true).2
      (0, 0)).block_count = 0 ∧
    (mempool_free (mempool_alloc_internal (MEMPOOL_INIT 8 4) true true).2
      (0, 0)).block_end = 0 ∧
    (mempool_free (mempool_alloc_internal (MEMPOOL_INIT 8 4) true true).2
      (0, 0)).free_elements = [] ∧
    (mempool_free (mempool_alloc_internal (MEMPOOL_INIT 8 4) true true).2
      (0, 0)).alloc_count = 0 :=
  mempool_free_last_resets_pool
    (mempool_alloc_internal (MEMPOOL_INIT 8 4) true true).2 (0, 0) (by decide)

/-- C9 counterexample: a failed block-pointer-list realloc does not leave the
pool in its pre-growth state beyond discarding the block list: on a fresh pool
it leaves `block_count` incremented to 1 while `blocks` is null, so a retry
does not go through the growth branch at all (`block_count != 0` and
`block_end != block_size`) and carves an address in a block that does not
exist - in C this dereferences the null `blocks` pointer, so the pool is not
usable on retry. -/
theorem mempool_alloc_failure_not_pre_growth :
    (mempool_alloc_internal (MEMPOOL_INIT 8 4) false true).1 = none ∧
    (MEMPOOL_INIT 8 4).block_count = 0 ∧
    (mempool_alloc_internal (MEMPOOL_INIT 8 4) false true).2.block_count = 1 ∧
    (mempool_alloc_internal (MEMPOOL_INIT 8 4) false true).2.blocks = [] ∧
    (mempool_alloc_internal
      (mempool_alloc_internal (MEMPOOL_INIT 8 4) false true).2 true true).1
      = some (0, 0) ∧
    (mempool_alloc_internal
      (mempool_alloc_internal (MEMPOOL_INIT 8 4) false true).2 true true).2.blocks
      = [] := by
  decide

/-- C9 (amended): on an allocation failure during the block-growth step the
alloc returns absent, but the pool is not restored to its pre-growth state.
A failed block-list realloc discards the block list and leaves `block_count`
incremented (not rolled back); `block_end`, `alloc_count` and the free list
are untouched.  A failed block malloc leaves the block list grown by a null
block slot, `block_count` incremented, and `block_end` reset to 0;
`alloc_count` and the free list are untouched.  In neither case is the pool
safe to retry. -/
theorem mempool_alloc_failure_states (pool : mempool_t) (b : Bool)
    (hfree : pool.free_elements = [])
    (hgrow : pool.block_end = pool.block_size ∨ pool.block_count = 0) :
    ((mempool_alloc_internal pool false b).1 = none ∧
     (mempool_alloc_internal pool false b).2.blocks = [] ∧
     (mempool_alloc_internal pool false b).2.block_count = pool.block_count + 1 ∧
     (mempool_alloc_internal pool false b).2.block_end = pool.block_end ∧
     (mempool_alloc_internal pool false b).2.alloc_count = pool.alloc_count ∧
     (mempool_alloc_internal pool false b).2.free_elements = []) ∧
    ((mempool_alloc_internal pool true false).1 = none ∧
     (mempool_alloc_internal pool true false).2.blocks = pool.blocks ++ [false] ∧
     (mempool_alloc_internal pool true false).2.block_count = pool.block_count + 1 ∧
     (mempool_alloc_internal pool true false).2.block_end = 0 ∧
     (mempool_alloc_internal pool true false).2.alloc_count = pool.alloc_count ∧
     (mempool_alloc_internal pool true false).2.free_elements = []) := by
  constructor
  · simp only [mempool_alloc_internal, hfree]
    rw [if_pos hgrow]
    simp
  · simp only [mempool_alloc_internal, hfree]
    rw [if_pos hgrow]
    simp

/-- Witness for C9's amended theorem: both failure modes on a fresh pool. -/
theorem mempool_alloc_failure_states_witness :
    ((mempool_alloc_internal (MEMPOOL_INIT 8 4) false true).1 = none ∧
     (mempool_alloc_internal (MEMPOOL_INIT 8 4) false true).2.blocks = [] ∧
     (mempool_alloc_internal (MEMPOOL_INIT 8 4) false true).2.block_count =
       (MEMPOOL_INIT 8 4).block_count + 1 ∧
     (mempool_alloc_internal (MEMPOOL_INIT 8 4) false true).2.block_end =
       (MEMPOOL_INIT 8 4).block_end ∧
     (mempool_alloc_internal (MEMPOOL_INIT 8 4) false true).2.alloc_count =
       (MEMPOOL_INIT 8 4).alloc_count ∧
     (mempool_alloc_internal (MEMPOOL_INIT 8 4) false true).2.free_elements = []) ∧
    ((mempool_alloc_internal (MEMPOOL_INIT 8 4) true false).1 = none ∧
     (mempool_alloc_internal (MEMPOOL_INIT 8 4) true false).2.blocks =
       (MEMPOOL_INIT 8 4).blocks ++ [false] ∧
     (mempool_alloc_internal (MEMPOOL_INIT 8 4) true false).2.block_count =
       (MEMPOOL_INIT 8 4).block_count + 1 ∧
     (mempool_alloc_internal (MEMPOOL_INIT 8 4) true false).2.block_end = 0 ∧
     (mempool_alloc_internal (MEMPOOL_INIT 8 4) true false).2.alloc_count =
       (MEMPOOL_INIT 8 4).alloc_count ∧
     (mempool_alloc_internal (MEMPOOL_INIT 8 4) true false).2.free_elements = []) :=
  mempool_alloc_failure_states (MEMPOOL_INIT 8 4) true (by decide) (by decide)
